import Mathlib

/-!
Verification of the EnvAgent repository (ISEL-HGU/EnvAgent) against its
natural-language specification.

The Python sources are shallowly embedded: Python strings are modelled as
Lean String values manipulated through their underlying character lists,
and every embedded function mirrors the control flow of the corresponding
Python function.  Python whitespace stripping, lowercasing, splitting on
newline characters, regular-expression scans and the standard stable sort
are reimplemented on List Char so that every definition is executable and
kernel-reducible.

Sources embedded here:
  src/utils/helpers.py           (sanitize_env_name)
  src/utils/dependency_collector.py (extract_imports_from_file, get_summary)
  src/agents/env_fixer.py        (normalize, _are_yamls_identical, fix,
                                  _force_remove_problematic_package)
  src/agents/env_builder.py      (_clean_markdown, build_from_summary_dict)
  src/agents/decision_agent.py   (_find_true_project_root)
  src/main_v2.py                 (the bounded create/fix retry loop)
-/

namespace EnvAgent

/-! Basic character classes used by the Python runtime. -/

/-- Whitespace characters stripped by the Python str.strip method
(space, tab, newline, carriage return, vertical tab, form feed). -/
def isPySpace (c : Char) : Bool :=
  c = ' ' || c = '\t' || c = '\n' || c = '\r' || c = '\x0b' || c = '\x0c'

/-- Characters kept by the regular expression class [a-zA-Z0-9_]. -/
def isWordChar (c : Char) : Bool :=
  c.isAlpha || c.isDigit || c = '_'

/-- Characters of the regular-expression class [a-zA-Z0-9_-]. -/
def isNameChar (c : Char) : Bool :=
  c.isAlpha || c.isDigit || c = '_' || c = '-'

/-- Characters of the regular-expression class [0-9.]. -/
def isDigitDot (c : Char) : Bool :=
  c.isDigit || c = '.'

/-- Single-quote character (written numerically). -/
def squote : Char := Char.ofNat 39

/-- Double-quote character (written numerically). -/
def dquote : Char := Char.ofNat 34

/-- Quote characters accepted by the regular-expression quote class. -/
def isQuote (c : Char) : Bool := c = squote || c = dquote

/-! Python string primitives on character lists. -/

/-- Drop a maximal run of characters satisfying p from the end of a list
(the right half of Python str.strip). -/
def dropEndWhile (p : Char → Bool) : List Char → List Char
  | [] => []
  | c :: r =>
    match dropEndWhile p r with
    | [] => if p c then [] else [c]
    | x :: xs => c :: x :: xs

/-- Python str.strip with an arbitrary character class. -/
def pyStripWith (p : Char → Bool) (l : List Char) : List Char :=
  dropEndWhile p (l.dropWhile p)

/-- Python str.strip() on a character list (whitespace both ends). -/
def pyStripL (l : List Char) : List Char := pyStripWith isPySpace l

/-- Python str.strip() on a String. -/
def pyStrip (s : String) : String := ⟨pyStripL s.data⟩

/-- Python str.split with separator a single newline character. -/
def splitNl : List Char → List (List Char)
  | [] => [[]]
  | c :: r =>
    if c = '\n' then [] :: splitNl r
    else
      match splitNl r with
      | h :: t => (c :: h) :: t
      | [] => [[c]]

/-- Python newline join: the inverse of splitNl. -/
def joinNl : List (List Char) → List Char
  | [] => []
  | [x] => x
  | x :: y :: t => x ++ '\n' :: joinNl (y :: t)

/-- Python substring containment (the in operator on str). -/
def occursIn (pat : List Char) : List Char → Bool
  | [] => pat.isPrefixOf []
  | c :: r => pat.isPrefixOf (c :: r) || occursIn pat r

/-- Python ASCII lowercasing of a character list (str.lower restricted to
the ASCII range, which is all that reaches these call sites). -/
def pyLowerL (l : List Char) : List Char := l.map Char.toLower

/-- Lexicographic code-point comparison, the Python string less-or-equal. -/
def lexLe : List Char → List Char → Bool
  | [], _ => true
  | _ :: _, [] => false
  | a :: as, b :: bs =>
    if a.val < b.val then true
    else if b.val < a.val then false
    else lexLe as bs

/-! Counting non-whitespace characters.  This quantity is preserved by
stripping, splitting, joining, trimming and sorting, and strictly
decreases whenever a nonblank line is deleted; it is the key measure for
the progress arguments about the repair loop. -/

/-- Number of non-whitespace characters of a character list. -/
def nwc (l : List Char) : Nat := l.countP (fun c => !isPySpace c)

/-! Embedding of src/agents/env_fixer.py (class EnvironmentFixer).
The OpenAI call is abstracted: the oracle response text is a parameter. -/

namespace EnvironmentFixer

/-- Embedding of the local normalize function of _are_yamls_identical,
up to the sorted lines: strip the whole text, split on newlines, strip
each line, drop blank lines. -/
def normLines (s : String) : List (List Char) :=
  ((splitNl (pyStripL s.data)).map pyStripL).filter (fun l => !l.isEmpty)

/-- Embedding of the normalize function of _are_yamls_identical:
newline-join of the sorted normalized lines.  Python sorted is a stable
sort under the code-point order; since equal lines are identical, any
correct sort produces the same list, so insertionSort is extensionally
faithful. -/
def normalize (s : String) : String :=
  ⟨joinNl (List.insertionSort (fun a b => lexLe a b = true) (normLines s))⟩

/-- Embedding of EnvironmentFixer._are_yamls_identical. -/
def are_yamls_identical (yml1 yml2 : String) : Bool :=
  normalize yml1 == normalize yml2

/-- Modelled from the spec: the identity check as the specification
words it, which in addition to blank lines also strips comment lines
(lines starting with a hash) before sorting and comparing. -/
def spec_are_yamls_identical (yml1 yml2 : String) : Bool :=
  let norm := fun (s : String) =>
    List.insertionSort (fun a b => lexLe a b = true)
      (((splitNl (pyStripL s.data)).map pyStripL).filter
        (fun l => !l.isEmpty && !(("#".data).isPrefixOf l)))
  norm yml1 == norm yml2

/-- Matcher for the regular expression cudnn\s*=\s*[\d.]+ at the head of
a character list; returns the remainder after the match. -/
def tryCudnn (l : List Char) : Option (List Char) :=
  if ("cudnn".data).isPrefixOf l then
    let r1 := l.drop 5
    let r2 := r1.dropWhile isPySpace
    match r2 with
    | '=' :: r3 =>
      let r4 := r3.dropWhile isPySpace
      let ds := r4.takeWhile isDigitDot
      if ds.isEmpty then none else some (r4.drop ds.length)
    | _ => none
  else none

/-- Fueled scanner for the substitution below; the fuel strictly exceeds
the scanned length at every call, decreasing by one while the scanned
suffix shrinks by at least one, so the zero-fuel case is unreachable from
the wrapper.  Fuel keeps the recursion structural (kernel-reducible). -/
def cudnnSubAux : Nat → List Char → List Char
  | 0, l => l
  | _ + 1, [] => []
  | fuel + 1, c :: r =>
    match tryCudnn (c :: r) with
    | some rest => "cudnn>=8.0".data ++ cudnnSubAux fuel rest
    | none => c :: cudnnSubAux fuel r

/-- Embedding of re.sub with pattern cudnn\s*=\s*[\d.]+ and replacement
cudnn>=8.0 over one line (left-to-right, non-overlapping, greedy; for
this pattern backtracking can never produce a match that the greedy scan
misses, so the scan below is faithful). -/
def cudnnSub (l : List Char) : List Char := cudnnSubAux (l.length + 1) l

/-- Matcher for the quoted-token regular expression, applied just after
an opening quote: name characters, an optional comparison operator, then
digits and dots, closed by a quote.  Returns the captured group and the
remainder after the closing quote.  For this pattern a failed greedy
attempt cannot be saved by backtracking, so the greedy scan is
faithful. -/
def quoteTry (r : List Char) : Option (List Char × List Char) :=
  let run := r.takeWhile isNameChar
  if run.isEmpty then none
  else
    let r1 := r.drop run.length
    let opr :=
      if ("==".data).isPrefixOf r1 then ("==".data, r1.drop 2)
      else if (">=".data).isPrefixOf r1 then (">=".data, r1.drop 2)
      else if ("<=".data).isPrefixOf r1 then ("<=".data, r1.drop 2)
      else (([] : List Char), r1)
    let ds := opr.2.takeWhile isDigitDot
    match opr.2.drop ds.length with
    | c :: rest => if isQuote c then some (run ++ opr.1 ++ ds, rest) else none
    | [] => none

/-- Fueled scanner for the quote pattern (fuel as in cudnnSubAux). -/
def quoteScanAux : Nat → List Char → List (List Char)
  | 0, _ => []
  | _ + 1, [] => []
  | fuel + 1, c :: r =>
    if isQuote c then
      match quoteTry r with
      | some (grp, rest) => grp :: quoteScanAux fuel rest
      | none => quoteScanAux fuel r
    else quoteScanAux fuel r

/-- Embedding of re.findall for the quoted-token pattern: scan the text,
at each quote character attempt a match; on success continue after the
closing quote, on failure advance one character. -/
def quoteScan (l : List Char) : List (List Char) := quoteScanAux (l.length + 1) l

/-- Embedding of match.split on the three comparison characters taking
the first piece each time. -/
def extractPkgName (m : List Char) : List Char :=
  ((m.takeWhile (fun c => c ≠ '=')).takeWhile (fun c => c ≠ '>')).takeWhile
    (fun c => c ≠ '<')

/-- Fueled scanner for the dash pattern (fuel as in cudnnSubAux). -/
def dashScanAux : Nat → List Char → List (List Char)
  | 0, _ => []
  | _ + 1, [] => []
  | fuel + 1, '-' :: ' ' :: r =>
    let run := r.takeWhile isNameChar
    if run.isEmpty then dashScanAux fuel (' ' :: r)
    else run :: dashScanAux fuel (r.drop run.length)
  | fuel + 1, _ :: r => dashScanAux fuel r

/-- Embedding of re.findall for the dash pattern (a dash, a space, then a
run of name characters). -/
def dashScan (l : List Char) : List (List Char) := dashScanAux (l.length + 1) l

/-- Python list append guarded by a membership test. -/
def addUnique (acc : List (List Char)) (x : List Char) : List (List Char) :=
  if acc.contains x then acc else acc ++ [x]

/-- Embedding of the problem-package extraction in
_force_remove_problematic_package (error-message analysis). -/
def problemPackages (error : List Char) : List (List Char) :=
  let p0 := if occursIn ("cudnn".data) (pyLowerL error)
    then [("cudnn".data)] else []
  let p1 := if occursIn ("cudatoolkit".data) (pyLowerL error)
    then p0 ++ [("cudatoolkit".data)] else p0
  let p2 := (quoteScan error).foldl (fun acc m => addUnique acc (extractPkgName m)) p1
  (dashScan error).foldl (fun acc m => addUnique acc m) p2

/-- Embedding of the per-line removal test of the main removal loop. -/
def shouldRemove (pkgs : List (List Char)) (line : List Char) : Bool :=
  pkgs.any (fun p => occursIn p line && ("-".data).isPrefixOf (pyStripL line))

/-- Embedding of the last-resort loop: remove the first line whose
stripped form starts with a dash and a space and which does not contain
pip. -/
def removeFirstCondaDep : List (List Char) → List (List Char)
  | [] => []
  | l :: r =>
    if ("- ".data).isPrefixOf (pyStripL l) && !(occursIn ("pip".data) l) then r
    else l :: removeFirstCondaDep r

/-- Python indentation count: len(line) - len(line.lstrip()). -/
def indentOf (l : List Char) : Nat := l.length - (l.dropWhile isPySpace).length

/-- Embedding of strategy 1 of the cudnn branch: insert a nvidia channel
line after the first line containing the channels header. -/
def addNvidia : List (List Char) → (List (List Char) × Bool)
  | [] => ([], false)
  | l :: r =>
    if occursIn ("channels:".data) l then
      (l :: (List.replicate (indentOf l + 2) ' ' ++ "- nvidia".data) :: r, true)
    else
      let res := addNvidia r
      (l :: res.1, res.2)

/-- Embedding of strategy 2 of the cudnn branch: relax an exact cudnn
version pin on lines the code flags (the flag is set even when the
substitution itself matches nothing). -/
def relaxCudnn : List (List Char) → (List (List Char) × Bool)
  | [] => ([], false)
  | l :: r =>
    let res := relaxCudnn r
    if occursIn ("cudnn".data) (pyLowerL l) && ("-".data).isPrefixOf (pyStripL l) then
      if occursIn ("=".data) l && !(occursIn (">=".data) l) then
        (cudnnSub l :: res.1, true)
      else (l :: res.1, res.2)
    else (l :: res.1, res.2)

/-- Embedding of strategy 3 of the cudnn branch: replace a constrained
cudnn line by a bare dash cudnn line at the same indentation. -/
def simplifyCudnn : List (List Char) → (List (List Char) × Bool)
  | [] => ([], false)
  | l :: r =>
    let res := simplifyCudnn r
    if occursIn ("cudnn".data) (pyLowerL l) && ("-".data).isPrefixOf (pyStripL l) then
      if occursIn ("=".data) l || occursIn (">".data) l || occursIn ("<".data) l then
        ((List.replicate (indentOf l) ' ' ++ "- cudnn".data) :: res.1, true)
      else (l :: res.1, res.2)
    else (l :: res.1, res.2)

/-- Embedding of the package-removal tail of
_force_remove_problematic_package: delete lines naming an identified
problem package, and if the stripped text is unchanged fall back to
removing the first conda dependency line of the original text. -/
def commonRemoval (yml error : String) : String :=
  let lines := splitNl yml.data
  let pkgs := problemPackages error.data
  let kept := lines.filter (fun line => !(shouldRemove pkgs line))
  let fixed := joinNl kept
  if pyStripL fixed == pyStripL yml.data then
    ⟨joinNl (removeFirstCondaDep lines)⟩
  else ⟨fixed⟩

/-- Embedding of EnvironmentFixer._force_remove_problematic_package. -/
def force_remove_problematic_package (yml error : String) : String :=
  let lines := splitNl yml.data
  if occursIn ("cudnn".data) (pyLowerL error.data) then
    if !(occursIn ("nvidia".data) yml.data) && (addNvidia lines).2 then
      ⟨joinNl (addNvidia lines).1⟩
    else if (relaxCudnn lines).2 then ⟨joinNl (relaxCudnn lines).1⟩
    else if (simplifyCudnn lines).2 then ⟨joinNl (simplifyCudnn lines).1⟩
    else commonRemoval yml error
  else commonRemoval yml error

/-- Embedding of the markdown-fence cleanup inside EnvironmentFixer.fix
(drop a leading and a trailing fence line, then strip). -/
def cleanResponse (resp : String) : String :=
  let fixed := pyStripL resp.data
  if ("```".data).isPrefixOf fixed then
    let lines := splitNl fixed
    let l1 := if ("```".data).isPrefixOf (lines.headD []) then lines.drop 1 else lines
    let l2 := if !l1.isEmpty && ("```".data).isPrefixOf (l1.getLastD [])
      then l1.dropLast else l1
    ⟨pyStripL (joinNl l2)⟩
  else ⟨fixed⟩

/-- Embedding of EnvironmentFixer.fix on a successful oracle call: the
oracle response text is the third argument; if the cleaned response is
judged identical to the input the deterministic fallback is applied. -/
def fix (current_yml error_message resp : String) : String :=
  let fixed_yml := cleanResponse resp
  if are_yamls_identical current_yml fixed_yml then
    force_remove_problematic_package current_yml error_message
  else fixed_yml

end EnvironmentFixer

/-! Embedding of src/utils/helpers.py. -/

namespace Helpers

/-- Embedding of str.replace for a single-character pattern. -/
def replaceChar (a b : Char) (l : List Char) : List Char :=
  l.map (fun c => if c = a then b else c)

/-- One left-to-right non-overlapping pass of str.replace with pattern
two underscores and replacement one underscore. -/
def replaceUU : List Char → List Char
  | a :: b :: r =>
    if a = '_' && b = '_' then '_' :: replaceUU r
    else a :: replaceUU (b :: r)
  | l => l

/-- Test for a double underscore (the in operator with pattern two
underscores). -/
def hasUU : List Char → Bool
  | a :: b :: r => (a = '_' && b = '_') || hasUU (b :: r)
  | _ => false

/-- Fueled form of the while loop collapsing consecutive underscores;
each iteration shortens the list, so fuel equal to the length always
suffices (kept structural so the kernel can evaluate it). -/
def collapseUAux : Nat → List Char → List Char
  | 0, l => l
  | fuel + 1, l => if hasUU l then collapseUAux fuel (replaceUU l) else l

/-- Embedding of the while loop collapsing consecutive underscores. -/
def collapseU (l : List Char) : List Char := collapseUAux l.length l

/-- Python str.strip with the underscore character as argument. -/
def stripU (l : List Char) : List Char := pyStripWith (fun c => c = '_') l

/-- Embedding of sanitize_env_name from src/utils/helpers.py. -/
def sanitize_env_name (s : String) : String :=
  if s.data.isEmpty || (pyStripL s.data).isEmpty then "env"
  else
    match stripU (collapseU (((replaceChar '-' '_'
        (replaceChar ' ' '_' s.data)).filter isWordChar).map Char.toLower)) with
    | [] => "env"
    | c :: r => if c.isDigit then ⟨'e' :: 'n' :: 'v' :: '_' :: c :: r⟩ else ⟨c :: r⟩

/-- Characters allowed after the first position by the naming rule of
the specification: lowercase letters, digits, underscore. -/
def isLowerWord (c : Char) : Bool := c.isLower || c.isDigit || c = '_'

/-- The regular expression of the specification: one lowercase letter
followed by lowercase letters, digits and underscores. -/
def validEnvName (l : List Char) : Bool :=
  match l with
  | [] => false
  | c :: r => c.isLower && r.all isLowerWord

end Helpers

/-! Embedding of src/utils/dependency_collector.py (class
DependencyCollector). -/

namespace DependencyCollector

/-- Embedding of the IMPORT_MAP dictionary. -/
def IMPORT_MAP : List (String × String) :=
  [("cv2", "opencv-python"), ("PIL", "pillow"), ("sklearn", "scikit-learn"),
   ("skimage", "scikit-image"), ("yaml", "pyyaml"), ("bs4", "beautifulsoup4"),
   ("dotenv", "python-dotenv"), ("git", "gitpython"), ("serial", "pyserial"),
   ("usb", "pyusb"), ("jwt", "pyjwt"), ("magic", "python-magic"),
   ("dateutil", "python-dateutil"), ("Crypto", "pycryptodome"),
   ("OpenSSL", "pyopenssl"), ("bottle", "bottle"), ("flask", "flask"),
   ("django", "django"), ("fastapi", "fastapi"), ("starlette", "starlette"),
   ("aiohttp", "aiohttp"), ("requests", "requests"), ("httpx", "httpx"),
   ("tornado", "tornado"), ("sqlalchemy", "sqlalchemy"),
   ("psycopg2", "psycopg2-binary"), ("pymongo", "pymongo"), ("redis", "redis"),
   ("celery", "celery"), ("numpy", "numpy"), ("pandas", "pandas"),
   ("scipy", "scipy"), ("matplotlib", "matplotlib"), ("seaborn", "seaborn"),
   ("plotly", "plotly"), ("torch", "torch"), ("tensorflow", "tensorflow"),
   ("keras", "keras"), ("transformers", "transformers"),
   ("datasets", "datasets"), ("tokenizers", "tokenizers"),
   ("accelerate", "accelerate"), ("diffusers", "diffusers"),
   ("openai", "openai"), ("anthropic", "anthropic"),
   ("langchain", "langchain"), ("llama_index", "llama-index")]

/-- Embedding of the STDLIB name set. -/
def STDLIB : List String :=
  ["os", "sys", "re", "json", "time", "datetime", "collections",
   "itertools", "functools", "pathlib", "typing", "abc", "copy",
   "math", "random", "string", "io", "tempfile", "shutil", "glob",
   "subprocess", "threading", "multiprocessing", "concurrent",
   "asyncio", "socket", "http", "urllib", "email", "html", "xml",
   "logging", "warnings", "traceback", "inspect", "types",
   "dataclasses", "enum", "contextlib", "pickle", "hashlib",
   "base64", "struct", "codecs", "csv", "configparser", "argparse",
   "unittest", "doctest", "pdb", "profile", "timeit", "dis",
   "gc", "weakref", "operator", "statistics", "decimal", "fractions",
   "numbers", "cmath", "array", "bisect", "heapq", "queue",
   "textwrap", "difflib", "secrets", "uuid", "platform", "ctypes",
   "importlib", "pkgutil", "zipfile", "tarfile", "gzip", "bz2", "lzma",
   "sqlite3",
   "zlib", "binascii", "pprint", "reprlib", "locale",
   "gettext", "calendar", "atexit", "signal", "mmap", "select",
   "selectors", "errno", "faulthandler", "resource", "sysconfig",
   "site", "code", "codeop", "distutils", "ensurepip", "venv",
   "lib2to3", "test", "pydoc", "turtle", "cmd", "shlex", "getopt",
   "getpass", "telnetlib", "imaplib", "poplib", "smtplib", "ftplib",
   "netrc", "cgi", "cgitb", "wsgiref", "xmlrpc", "ipaddress",
   "audioop", "wave", "colorsys",
   "curses", "readline", "rlcompleter",
   "_thread", "builtins", "runpy", "symtable", "token", "keyword",
   "tokenize", "tabnanny", "py_compile", "compileall", "parser",
   "fileinput", "linecache", "fnmatch", "stat", "filecmp",
   "posixpath", "ntpath", "genericpath", "macpath", "posix", "nt",
   "pwd", "grp", "termios", "tty", "pty", "fcntl", "pipes", "ossaudiodev"]

/-- Matcher for one alternative of the import regular expression: the
keyword, at least one whitespace character, then a maximal nonblank
token (which must be nonempty). -/
def matchKw (kw l : List Char) : Option (List Char) :=
  if kw.isPrefixOf l then
    let r := l.drop kw.length
    let ws := r.takeWhile isPySpace
    let tok := (r.drop ws.length).takeWhile (fun c => !isPySpace c)
    if !ws.isEmpty && !tok.isEmpty then some tok else none
  else none

/-- Embedding of re.match with the import pattern: first the from
alternative, then the import alternative. -/
def importMatch (l : List Char) : Option (List Char) :=
  match matchKw ("from".data) l with
  | some t => some t
  | none => matchKw ("import".data) l

/-- Embedding of DependencyCollector.extract_imports_from_file.  The
Python set is modelled as a duplicate-free list in insertion order:
membership coincides with membership in the Python set. -/
def extract_imports_from_file (content : String) : List String :=
  (splitNl content.data).foldl (fun acc l =>
    let line := pyStripL l
    if ("#".data).isPrefixOf line then acc
    else
      match importMatch line with
      | none => acc
      | some module =>
        let top : String := ⟨module.takeWhile (fun c => c ≠ '.')⟩
        if STDLIB.contains top || (".".data).isPrefixOf top.data then acc
        else if acc.contains top then acc else acc ++ [top]) []

/-- Embedding of DependencyCollector.map_import_to_package. -/
def map_import_to_package (import_name : String) : String :=
  (IMPORT_MAP.lookup import_name).getD import_name

/-- Embedding of the python_version computation of
DependencyCollector.get_summary: the Python builtin max over the
collected hint strings (lexicographic code-point comparison), with the
fixed baseline when no hints were collected. -/
def summary_python_version (python_hints : List String) : String :=
  match python_hints with
  | [] => "3.9"
  | h :: t => t.foldl (fun m x => if !(lexLe x.data m.data) then x else m) h

/-- Modelled from the spec: the dotted major.minor numeric ordering used
by the specification to state which hint dominates. -/
def specDottedLt (a b : String) : Bool :=
  let parse := fun (s : String) =>
    let major := (s.data.takeWhile (fun c => c ≠ '.')).foldl
      (fun n c => n * 10 + (c.toNat - 48)) 0
    let minor := ((s.data.dropWhile (fun c => c ≠ '.')).drop 1).foldl
      (fun n c => n * 10 + (c.toNat - 48)) 0
    (major, minor)
  let pa := parse a
  let pb := parse b
  pa.1 < pb.1 || (pa.1 = pb.1 && pa.2 < pb.2)

end DependencyCollector

/-! Embedding of src/agents/env_builder.py (class EnvironmentBuilder).
The OpenAI call is abstracted: the oracle response text is a
parameter. -/

namespace EnvironmentBuilder

/-- Embedding of EnvironmentBuilder._clean_markdown. -/
def clean_markdown (content : String) : String :=
  if ("```".data).isPrefixOf content.data then
    let lines := splitNl content.data
    let l1 := if ("```".data).isPrefixOf (lines.headD []) then lines.drop 1 else lines
    let l2 := if !l1.isEmpty && ("```".data).isPrefixOf (l1.getLastD [])
      then l1.dropLast else l1
    ⟨joinNl l2⟩
  else content

/-- Embedding of the response handling of
EnvironmentBuilder.build_from_summary_dict: the oracle response is
stripped and markdown fences are removed; no other transformation is
applied to the returned manifest. -/
def build_from_summary_dict_output (resp : String) : String :=
  clean_markdown (pyStrip resp)

end EnvironmentBuilder

/-! Embedding of src/config/settings.py. -/

namespace Settings

/-- Embedding of Settings.MAX_RETRIES. -/
def MAX_RETRIES : Nat := 5

end Settings

/-! Embedding of the create-and-fix retry loop of src/main_v2.py (the
same loop shape appears in src/main.py and src/main_new.py).  The conda
executor and the fixer are abstracted as functions: the executor result
may depend on the attempt number and the current manifest, the fixer
maps a manifest and a diagnostic to the repaired manifest. -/

namespace MainV2

/-- Terminal condition of the retry loop. -/
inductive LoopOutcome where
  | succeeded
  | exhausted
  | fellThrough
deriving DecidableEq

/-- Observable result of one run of the retry loop. -/
structure RunResult where
  outcome : LoopOutcome
  matCalls : Nat
  fixCalls : Nat
  finalYml : String
deriving DecidableEq

/-- One unfolding of the for loop of main (attempt numbering as in the
source: the second argument is the current attempt number, the first the
number of attempts still allowed including the current one).  A failure
on the last allowed attempt exits without calling the fixer. -/
def runLoopAux (mat : Nat → String → Bool × String)
    (fixer : String → String → String) :
    Nat → Nat → String → RunResult
  | 0, _, yml => ⟨.fellThrough, 0, 0, yml⟩
  | k + 1, attempt, yml =>
    let res := mat attempt yml
    if res.1 then ⟨.succeeded, 1, 0, yml⟩
    else if k = 0 then ⟨.exhausted, 1, 0, yml⟩
    else
      let fixed := fixer yml res.2
      let r := runLoopAux mat fixer k (attempt + 1) fixed
      ⟨r.outcome, r.matCalls + 1, r.fixCalls + 1, r.finalYml⟩

/-- The retry loop of main: attempts 1 .. maxRetries. -/
def runLoop (mat : Nat → String → Bool × String)
    (fixer : String → String → String) (maxRetries : Nat) (yml : String) :
    RunResult :=
  runLoopAux mat fixer maxRetries 1 yml

/-- Events observable on the conda executor during one run of main:
the existence check, the removal, one materialization attempt, one fixer
invocation. -/
inductive MEvent where
  | envCheck
  | envRemove
  | envCreate
  | fixCall
deriving DecidableEq

/-- Event trace of the for loop (mat gives the success of each
attempt). -/
def loopEvents (mat : Nat → Bool) : Nat → Nat → List MEvent
  | 0, _ => []
  | k + 1, attempt =>
    .envCreate ::
      (if mat attempt then []
       else if k = 0 then []
       else .fixCall :: loopEvents mat k (attempt + 1))

/-- Event trace of the creation phase of main: one existence check, a
removal when a same-named environment already exists, then the retry
loop. -/
def mainEvents (exists0 : Bool) (mat : Nat → Bool) (maxRetries : Nat) :
    List MEvent :=
  (.envCheck :: (if exists0 then [.envRemove] else [])) ++
    loopEvents mat maxRetries 1

/-- The clean-slate reading of the specification as a trace predicate:
scanning the trace, every materialization attempt must be preceded by a
removal that is more recent than the previous attempt (the flag records
whether a removal has happened since the last attempt; the first attempt
is unconstrained here because it is preceded by the explicit
check-and-remove prefix). -/
def removedBeforeEachCreate : List MEvent → Bool → Bool
  | [], _ => true
  | .envCreate :: r, sinceOk => sinceOk && removedBeforeEachCreate r false
  | .envRemove :: r, _ => removedBeforeEachCreate r true
  | _ :: r, f => removedBeforeEachCreate r f

end MainV2

/-! Embedding of src/agents/decision_agent.py
(DecisionAgent._find_true_project_root). -/

namespace DecisionAgent

/-- Abstract directory tree: a name, the plain files directly contained,
and the subdirectories. -/
inductive DirTree where
  | node : String → List String → List DirTree → DirTree

/-- Name of a directory. -/
def DirTree.name : DirTree → String
  | .node n _ _ => n

/-- Plain files directly contained in a directory. -/
def DirTree.files : DirTree → List String
  | .node _ f _ => f

/-- Subdirectories of a directory. -/
def DirTree.subdirs : DirTree → List DirTree
  | .node _ _ s => s

/-- Embedding of the IGNORED_DIRS set. -/
def IGNORED_DIRS : List String :=
  [".git", ".idea", ".vscode", "__pycache__",
   "node_modules", "venv", "env", ".env", "dist", "build"]

/-- Embedding of MAX_SCAN_DEPTH. -/
def MAX_SCAN_DEPTH : Nat := 4

/-- Score of one visited directory, computed from its files, its pruned
subdirectory names and its own name, exactly as in the walk body. -/
def dirScore (files : List String) (prunedNames : List String)
    (name : String) : Int :=
  (if ["setup.py", "pyproject.toml", "environment.yml", "conda.yaml"].any
      (fun f => files.contains f) then 10 else 0)
  + (if files.contains "requirements.txt" then 5 else 0)
  + (if prunedNames.contains "src" || prunedNames.contains "app" then 5 else 0)
  + (if ["docs", "tests", "examples", "scripts"].contains
      ⟨pyLowerL name.data⟩ then -10 else 0)

/-- Candidate collection of the os.walk loop in top-down order.  The
path of a visited directory is its component list relative to the start
directory.  Ignored subdirectories are pruned before descending and
before the src-or-app test; directories beyond the depth cap are neither
scored nor descended into.  The fuel argument is one more than the
number of remaining levels; it starts above the depth cap, decreases by
one per level while the depth increases by one, and therefore never
reaches zero before the depth test stops the walk (it keeps the
recursion structural). -/
def walkScores : Nat → DirTree → Nat → List String →
    List (Int × List String)
  | 0, _, _, _ => []
  | fuel + 1, .node nm files subdirs, depth, comps =>
    if depth > MAX_SCAN_DEPTH then []
    else
      let pruned := subdirs.filter (fun d => !(IGNORED_DIRS.contains d.name))
      let score := dirScore files (pruned.map DirTree.name) nm
      (if score > 0 then [(score, comps)] else []) ++
        (pruned.map (fun d =>
          walkScores fuel d (depth + 1) (comps ++ [d.name]))).flatten

/-- Rendered length of a visited path: the length of the start path
string plus one separator and the component length per component (the
key len(str(path)) differs from this only by the shared start length,
which cancels in every comparison). -/
def relPathLen (comps : List String) : Nat :=
  (comps.map (fun c => 1 + c.data.length)).sum

/-- The sort key order of the candidate sort: score descending, then
rendered path length ascending. -/
def rootLe (a b : Int × List String) : Bool :=
  b.1 < a.1 || (a.1 == b.1 && relPathLen a.2 ≤ relPathLen b.2)

/-- Embedding of DecisionAgent._find_true_project_root, returning the
component path of the chosen directory relative to the start directory
(the empty list is the unchanged start path).  Python list.sort is
stable; on this key order a stable sort and insertionSort agree on the
head, and the head is all the function returns. -/
def find_true_project_root (t : DirTree) : List String :=
  let cands := walkScores (MAX_SCAN_DEPTH + 2) t 0 []
  match List.insertionSort (fun a b => rootLe a b = true) cands with
  | [] => []
  | c :: _ => c.2

end DecisionAgent

/-! Concrete inputs used by witnesses. -/

namespace MainV2

/-- A materializer that fails on every attempt. -/
def witnessMat : Nat → String → Bool × String := fun _ _ => (false, "conda error")

/-- A fixer that appends one character per repair. -/
def witnessFixer : String → String → String := fun y _ => y ++ "x"

end MainV2

namespace DecisionAgent

/-- The monorepo tree of the specification test scenario: a start
directory with a tests subdirectory (manifest but negative role) and a
nested directory holding a packaging manifest. -/
def witnessTree : DirTree :=
  .node "proj" [] [.node "tests" ["setup.py"] [], .node "core" ["setup.py"] []]

end DecisionAgent

/-! Elementary lemmas about the primitives. -/

theorem splitNl_ne_nil (l : List Char) : splitNl l ≠ [] := by
  cases l with
  | nil => simp [splitNl]
  | cons c r =>
    simp only [splitNl]
    split
    · simp
    · cases h : splitNl r with
      | nil => simp
      | cons h t => simp

theorem joinNl_cons (x : List Char) (l : List (List Char)) (h : l ≠ []) :
    joinNl (x :: l) = x ++ '\n' :: joinNl l := by
  cases l with
  | nil => exact absurd rfl h
  | cons y t => rfl

theorem joinNl_splitNl (l : List Char) : joinNl (splitNl l) = l := by
  induction l with
  | nil => rfl
  | cons c r ih =>
    simp only [splitNl]
    split
    · rename_i hc
      rw [joinNl_cons _ _ (splitNl_ne_nil r), ih, hc]
      rfl
    · cases h : splitNl r with
      | nil => exact absurd h (splitNl_ne_nil r)
      | cons h0 t =>
        rw [h] at ih
        cases t with
        | nil =>
          simp only [joinNl] at ih ⊢
          rw [ih]
        | cons y t2 =>
          rw [joinNl_cons _ _ (by simp)]
          rw [joinNl_cons _ _ (by simp)] at ih
          simp only [List.cons_append]
          rw [ih]

theorem newline_not_mem_splitNl (l : List Char) :
    ∀ seg ∈ splitNl l, '\n' ∉ seg := by
  induction l with
  | nil =>
    intro seg hseg
    simp [splitNl] at hseg
    simp [hseg]
  | cons c r ih =>
    intro seg hseg
    simp only [splitNl] at hseg
    split at hseg
    · rcases List.mem_cons.mp hseg with h | h
      · simp [h]
      · exact ih seg h
    · rename_i hc
      cases h : splitNl r with
      | nil => exact absurd h (splitNl_ne_nil r)
      | cons h0 t =>
        rw [h] at hseg
        rcases List.mem_cons.mp hseg with h1 | h1
        · subst h1
          intro hmem
          rcases List.mem_cons.mp hmem with h2 | h2
          · exact hc h2.symm
          · exact ih h0 (by rw [h]; exact List.mem_cons_self _ _) h2
        · exact ih seg (by rw [h]; exact List.mem_cons_of_mem _ h1)

theorem dropEndWhile_app (p : Char → Bool) (l : List Char) :
    ∃ t, l = dropEndWhile p l ++ t := by
  induction l with
  | nil => exact ⟨[], rfl⟩
  | cons c r ih =>
    rcases ih with ⟨t, ht⟩
    simp only [dropEndWhile]
    cases h : dropEndWhile p r with
    | nil =>
      rw [h] at ht
      simp only [List.nil_append] at ht
      by_cases hpc : p c = true
      · exact ⟨c :: r, by simp [hpc]⟩
      · exact ⟨t, by simp [hpc, ht]⟩
    | cons x xs =>
      rw [h] at ht
      exact ⟨t, by simp [ht]⟩

theorem dropWhile_app (p : Char → Bool) (l : List Char) :
    ∃ t, l = t ++ l.dropWhile p := by
  exact ⟨l.takeWhile p, (List.takeWhile_append_dropWhile p l).symm⟩

theorem pyStripWith_app (p : Char → Bool) (l : List Char) :
    ∃ a b, l = a ++ pyStripWith p l ++ b := by
  rcases dropEndWhile_app p (l.dropWhile p) with ⟨b, hb⟩
  refine ⟨l.takeWhile p, b, ?_⟩
  conv_lhs => rw [← List.takeWhile_append_dropWhile p l]
  rw [pyStripWith, List.append_assoc, ← hb]

theorem isPrefixOf_append {pat a : List Char} (b : List Char)
    (h : pat.isPrefixOf a = true) : pat.isPrefixOf (a ++ b) = true := by
  induction pat generalizing a with
  | nil => simp [List.isPrefixOf]
  | cons p ps ih =>
    cases a with
    | nil => simp [List.isPrefixOf] at h
    | cons x xs =>
      simp only [List.isPrefixOf, List.cons_append, Bool.and_eq_true] at h ⊢
      exact ⟨h.1, ih h.2⟩

theorem occursIn_nil_pat (l : List Char) : occursIn [] l = true := by
  cases l <;> simp [occursIn, List.isPrefixOf]

theorem occursIn_append_left {pat a : List Char} (b : List Char)
    (h : occursIn pat a = true) : occursIn pat (a ++ b) = true := by
  induction a with
  | nil =>
    simp only [occursIn] at h
    cases pat with
    | nil => exact occursIn_nil_pat b
    | cons p ps => simp [List.isPrefixOf] at h
  | cons c r ih =>
    simp only [occursIn, Bool.or_eq_true] at h ⊢
    rcases h with h | h
    · exact Or.inl (isPrefixOf_append b h)
    · exact Or.inr (ih h)

theorem occursIn_append_right {pat b : List Char} (a : List Char)
    (h : occursIn pat b = true) : occursIn pat (a ++ b) = true := by
  induction a with
  | nil => simpa using h
  | cons c r ih =>
    simp only [List.cons_append, occursIn, Bool.or_eq_true]
    exact Or.inr ih

theorem occursIn_of_between {pat x a b : List Char}
    (hx : occursIn pat x = true) : occursIn pat (a ++ x ++ b) = true := by
  rw [List.append_assoc]
  exact occursIn_append_right a (occursIn_append_left b hx)

theorem occursIn_pyStripWith {pat : List Char} (p : Char → Bool) (l : List Char)
    (h : occursIn pat (pyStripWith p l) = true) : occursIn pat l = true := by
  rcases pyStripWith_app p l with ⟨a, b, hab⟩
  rw [hab]
  exact occursIn_of_between h

theorem nwc_append (a b : List Char) : nwc (a ++ b) = nwc a + nwc b :=
  List.countP_append _ a b

theorem nwc_dropWhile (p : Char → Bool) (l : List Char)
    (hp : ∀ c, p c = true → isPySpace c = true) :
    nwc (l.dropWhile p) = nwc l := by
  induction l with
  | nil => rfl
  | cons c r ih =>
    by_cases hc : p c = true
    · rw [List.dropWhile_cons_of_pos hc, ih]
      simp [nwc, List.countP_cons, hp c hc]
    · rw [List.dropWhile_cons_of_neg hc]

theorem nwc_dropEndWhile (p : Char → Bool) (l : List Char)
    (hp : ∀ c, p c = true → isPySpace c = true) :
    nwc (dropEndWhile p l) = nwc l := by
  induction l with
  | nil => rfl
  | cons c r ih =>
    simp only [dropEndWhile]
    cases h : dropEndWhile p r with
    | nil =>
      rw [h] at ih
      simp only [nwc, List.countP_nil] at ih
      cases hpc : p c with
      | true =>
        have hws : isPySpace c = true := hp c hpc
        simp [nwc, List.countP_cons, hws, ← ih]
      | false =>
        simp only [if_false, Bool.false_eq_true]
        simp only [nwc, List.countP_cons, List.countP_nil]
        omega
    | cons x xs =>
      rw [h] at ih
      simp only [nwc, List.countP_cons] at ih ⊢
      omega

theorem nwc_pyStripWith (p : Char → Bool) (l : List Char)
    (hp : ∀ c, p c = true → isPySpace c = true) :
    nwc (pyStripWith p l) = nwc l := by
  rw [pyStripWith, nwc_dropEndWhile p _ hp, nwc_dropWhile p _ hp]

theorem nwc_pyStripL (l : List Char) : nwc (pyStripL l) = nwc l :=
  nwc_pyStripWith isPySpace l (fun _ h => h)

theorem nwc_joinNl (L : List (List Char)) :
    nwc (joinNl L) = (L.map nwc).sum := by
  induction L with
  | nil => rfl
  | cons x t ih =>
    cases t with
    | nil => simp [joinNl, nwc]
    | cons y t2 =>
      rw [joinNl_cons _ _ (by simp), nwc_append]
      simp only [List.map_cons, List.sum_cons] at ih ⊢
      have : nwc ('\n' :: joinNl (y :: t2)) = nwc (joinNl (y :: t2)) := by
        simp [nwc, List.countP_cons, isPySpace]
      rw [this, ih]

theorem nwc_splitNl_sum (l : List Char) :
    ((splitNl l).map nwc).sum = nwc l := by
  rw [← nwc_joinNl, joinNl_splitNl]

theorem nwc_pos_of_stripped_dash {l : List Char} {c : Char} {rest : List Char}
    (hc : isPySpace c = false) (h : pyStripL l = c :: rest) : 1 ≤ nwc l := by
  have h1 : 1 ≤ nwc (pyStripL l) := by
    rw [h]
    simp [nwc, List.countP_cons, hc]
  rwa [nwc_pyStripL] at h1

theorem sum_map_filter_le (f : List Char → Nat) (p : List Char → Bool)
    (L : List (List Char)) :
    ((L.filter p).map f).sum ≤ (L.map f).sum := by
  induction L with
  | nil => simp
  | cons x t ih =>
    by_cases hx : p x = true
    · simp only [List.filter_cons, hx, if_true, List.map_cons, List.sum_cons]
      omega
    · simp only [List.filter_cons, hx, Bool.false_eq_true, if_false,
        List.map_cons, List.sum_cons]
      omega

theorem sum_map_filter_lt (f : List Char → Nat) (p : List Char → Bool)
    (L : List (List Char)) (x : List Char) (hx : x ∈ L) (hpx : p x = false)
    (hfx : 1 ≤ f x) : ((L.filter p).map f).sum < (L.map f).sum := by
  induction L with
  | nil => simp at hx
  | cons y t ih =>
    rcases List.mem_cons.mp hx with h | h
    · subst h
      simp only [List.filter_cons, hpx, Bool.false_eq_true, if_false,
        List.map_cons, List.sum_cons]
      have := sum_map_filter_le f p t
      omega
    · by_cases hy : p y = true
      · simp only [List.filter_cons, hy, if_true, List.map_cons, List.sum_cons]
        have := ih h
        omega
      · simp only [List.filter_cons, hy, Bool.false_eq_true, if_false,
          List.map_cons, List.sum_cons]
        have := ih h
        omega

/-! Lexicographic code-point order on character lists (the Python string
order used by sorted). -/

theorem lexLe_refl (a : List Char) : lexLe a a = true := by
  induction a with
  | nil => rfl
  | cons c r ih => simp [lexLe, ih]

theorem lexLe_total (a b : List Char) : lexLe a b = true ∨ lexLe b a = true := by
  induction a generalizing b with
  | nil => exact Or.inl rfl
  | cons c r ih =>
    cases b with
    | nil => exact Or.inr rfl
    | cons d s =>
      by_cases h1 : c.val < d.val
      · exact Or.inl (by simp [lexLe, h1])
      · by_cases h2 : d.val < c.val
        · exact Or.inr (by simp [lexLe, h2])
        · rcases ih s with h | h
          · exact Or.inl (by simp [lexLe, h1, h2, h])
          · exact Or.inr (by simp [lexLe, h1, h2, h])

theorem char_val_eq_of_not_lt {c d : Char} (h1 : ¬ c.val < d.val)
    (h2 : ¬ d.val < c.val) : c = d := by
  apply Char.ext
  have h1 : ¬ c.val.toNat < d.val.toNat := h1
  have h2 : ¬ d.val.toNat < c.val.toNat := h2
  exact UInt32.toNat.inj (by omega)

theorem lexLe_antisymm {a b : List Char} (h1 : lexLe a b = true)
    (h2 : lexLe b a = true) : a = b := by
  induction a generalizing b with
  | nil =>
    cases b with
    | nil => rfl
    | cons d s => simp [lexLe] at h2
  | cons c r ih =>
    cases b with
    | nil => simp [lexLe] at h1
    | cons d s =>
      simp only [lexLe] at h1 h2
      by_cases hcd : c.val < d.val
      · have hdc : ¬ d.val < c.val := by
          intro hx
          have a1 : c.val.toNat < d.val.toNat := hcd
          have a2 : d.val.toNat < c.val.toNat := hx
          omega
        rw [if_neg hdc, if_pos hcd] at h2
        simp at h2
      · by_cases hdc : d.val < c.val
        · rw [if_neg hcd, if_pos hdc] at h1
          simp at h1
        · have hc : c = d := char_val_eq_of_not_lt hcd hdc
          subst hc
          rw [if_neg hcd, if_neg hcd] at h1 h2
          rw [ih h1 h2]

theorem lexLe_trans {a b c : List Char} (h1 : lexLe a b = true)
    (h2 : lexLe b c = true) : lexLe a c = true := by
  induction a generalizing b c with
  | nil => rfl
  | cons x xs ih =>
    cases b with
    | nil => simp [lexLe] at h1
    | cons y ys =>
      cases c with
      | nil => simp [lexLe] at h2
      | cons z zs =>
        simp only [lexLe] at h1 h2 ⊢
        by_cases hxy : x.val < y.val
        · by_cases hyz : y.val < z.val
          · have hxz : x.val < z.val := by
              have a1 : x.val.toNat < y.val.toNat := hxy
              have a2 : y.val.toNat < z.val.toNat := hyz
              show x.val.toNat < z.val.toNat
              omega
            simp [hxz]
          · by_cases hzy : z.val < y.val
            · rw [if_neg hyz, if_pos hzy] at h2
              simp at h2
            · have hyzeq : y = z := char_val_eq_of_not_lt hyz hzy
              subst hyzeq
              simp [hxy]
        · by_cases hyx : y.val < x.val
          · rw [if_neg hxy, if_pos hyx] at h1
            simp at h1
          · have hxyeq : x = y := char_val_eq_of_not_lt hxy hyx
            subst hxyeq
            rw [if_neg hxy, if_neg hyx] at h1
            by_cases hxz : x.val < z.val
            · simp [hxz]
            · by_cases hzx : z.val < x.val
              · rw [if_neg hxz, if_pos hzx] at h2
                simp at h2
              · rw [if_neg hxz, if_neg hzx] at h2 ⊢
                exact ih h1 h2

/-! Injectivity of the newline join on lists of nonempty newline-free
segments; needed to read the normalized comparison of the fixer back as a
statement about line multisets. -/

theorem append_newline_inj {a b u v : List Char} (ha : '\n' ∉ a)
    (hb : '\n' ∉ b) (h : a ++ '\n' :: u = b ++ '\n' :: v) :
    a = b ∧ u = v := by
  induction a generalizing b with
  | nil =>
    cases b with
    | nil => simpa using h
    | cons d s =>
      simp only [List.nil_append, List.cons_append, List.cons.injEq] at h
      exact absurd (h.1 ▸ List.mem_cons_self d s) hb
  | cons c r ih =>
    cases b with
    | nil =>
      simp only [List.cons_append, List.nil_append, List.cons.injEq] at h
      exact absurd (h.1.symm ▸ List.mem_cons_self c r) ha
    | cons d s =>
      simp only [List.cons_append, List.cons.injEq] at h
      have := ih (fun hm => ha (List.mem_cons_of_mem c hm))
        (fun hm => hb (List.mem_cons_of_mem d hm)) h.2
      exact ⟨by rw [h.1, this.1], this.2⟩

theorem joinNl_inj {L1 L2 : List (List Char)}
    (h1 : ∀ seg ∈ L1, seg ≠ [] ∧ '\n' ∉ seg)
    (h2 : ∀ seg ∈ L2, seg ≠ [] ∧ '\n' ∉ seg)
    (h : joinNl L1 = joinNl L2) : L1 = L2 := by
  induction L1 generalizing L2 with
  | nil =>
    cases L2 with
    | nil => rfl
    | cons y ys =>
      exfalso
      cases ys with
      | nil =>
        exact (h2 y (List.mem_cons_self _ _)).1 (by simpa [joinNl] using h.symm)
      | cons z zs =>
        rw [joinNl_cons _ _ (by simp)] at h
        have hy := (h2 y (List.mem_cons_self _ _)).1
        cases y with
        | nil => exact hy rfl
        | cons c cs => simp [joinNl] at h
  | cons x xs ih =>
    cases L2 with
    | nil =>
      exfalso
      cases xs with
      | nil =>
        exact (h1 x (List.mem_cons_self _ _)).1 (by simpa [joinNl] using h)
      | cons z zs =>
        have e1 : joinNl (x :: z :: zs) = x ++ '\n' :: joinNl (z :: zs) :=
          joinNl_cons _ _ (by simp)
        rw [e1] at h
        simp [joinNl] at h
    | cons y ys =>
      cases xs with
      | nil =>
        cases ys with
        | nil => simpa [joinNl] using h
        | cons z zs =>
          exfalso
          have e2 : joinNl (y :: z :: zs) = y ++ '\n' :: joinNl (z :: zs) :=
            joinNl_cons _ _ (by simp)
          rw [e2] at h
          simp only [joinNl] at h
          exact (h1 x (List.mem_cons_self _ _)).2
            (h.symm ▸ List.mem_append_right y (List.mem_cons_self _ _))
      | cons w ws =>
        cases ys with
        | nil =>
          exfalso
          have e1 : joinNl (x :: w :: ws) = x ++ '\n' :: joinNl (w :: ws) :=
            joinNl_cons _ _ (by simp)
          rw [e1] at h
          simp only [joinNl] at h
          exact (h2 y (List.mem_cons_self _ _)).2
            (h ▸ List.mem_append_right x (List.mem_cons_self _ _))
        | cons z zs =>
          have e1 : joinNl (x :: w :: ws) = x ++ '\n' :: joinNl (w :: ws) :=
            joinNl_cons _ _ (by simp)
          have e2 : joinNl (y :: z :: zs) = y ++ '\n' :: joinNl (z :: zs) :=
            joinNl_cons _ _ (by simp)
          rw [e1, e2] at h
          have hxy := append_newline_inj (h1 x (List.mem_cons_self _ _)).2
            (h2 y (List.mem_cons_self _ _)).2 h
          have := ih (fun seg hs => h1 seg (List.mem_cons_of_mem x hs))
            (fun seg hs => h2 seg (List.mem_cons_of_mem y hs)) hxy.2
          rw [hxy.1, this]

theorem length_le_of_isPrefixOf : ∀ {a l : List Char},
    a.isPrefixOf l = true → a.length ≤ l.length := by
  intro a
  induction a with
  | nil => intro l _; simp
  | cons c r ih =>
    intro l h
    cases l with
    | nil => simp [List.isPrefixOf] at h
    | cons x xs =>
      simp only [List.isPrefixOf, Bool.and_eq_true] at h
      simpa using ih h.2

theorem one_le_length_of_not_isEmpty {l : List Char} (h : l.isEmpty = false) :
    1 ≤ l.length := by
  cases l with
  | nil => simp at h
  | cons c r => simp


/-! Character-class facts used by the naming-rule proofs. -/

theorem char_eq_of_toNat_eq {c d : Char} (h : c.toNat = d.toNat) : c = d :=
  Char.ext (UInt32.toNat.inj h)

theorem char_toNat_ofNat (n : Nat) (h : Nat.isValidChar n) :
    (Char.ofNat n).toNat = n := by
  simp only [Char.ofNat, h, dif_pos, Char.ofNatAux, Char.toNat]
  rfl

theorem char_isLower_iff {c : Char} :
    c.isLower = true ↔ 97 ≤ c.toNat ∧ c.toNat ≤ 122 := by
  simp only [Char.isLower, Bool.and_eq_true, decide_eq_true_eq]
  exact ⟨fun ⟨h1, h2⟩ => ⟨h1, h2⟩, fun ⟨h1, h2⟩ => ⟨h1, h2⟩⟩

theorem char_isUpper_iff {c : Char} :
    c.isUpper = true ↔ 65 ≤ c.toNat ∧ c.toNat ≤ 90 := by
  simp only [Char.isUpper, Bool.and_eq_true, decide_eq_true_eq]
  exact ⟨fun ⟨h1, h2⟩ => ⟨h1, h2⟩, fun ⟨h1, h2⟩ => ⟨h1, h2⟩⟩

theorem char_isDigit_iff {c : Char} :
    c.isDigit = true ↔ 48 ≤ c.toNat ∧ c.toNat ≤ 57 := by
  simp only [Char.isDigit, Bool.and_eq_true, decide_eq_true_eq]
  exact ⟨fun ⟨h1, h2⟩ => ⟨h1, h2⟩, fun ⟨h1, h2⟩ => ⟨h1, h2⟩⟩

theorem isLowerWord_toNat {c : Char} (h : Helpers.isLowerWord c = true) :
    (97 ≤ c.toNat ∧ c.toNat ≤ 122) ∨ (48 ≤ c.toNat ∧ c.toNat ≤ 57) ∨
      c.toNat = 95 := by
  simp only [Helpers.isLowerWord, Bool.or_eq_true, decide_eq_true_eq] at h
  rcases h with (h | h) | h
  · exact Or.inl (char_isLower_iff.mp h)
  · exact Or.inr (Or.inl (char_isDigit_iff.mp h))
  · exact Or.inr (Or.inr (by rw [h]; rfl))

theorem isWordChar_toNat {c : Char} (h : isWordChar c = true) :
    (65 ≤ c.toNat ∧ c.toNat ≤ 90) ∨ (97 ≤ c.toNat ∧ c.toNat ≤ 122) ∨
      (48 ≤ c.toNat ∧ c.toNat ≤ 57) ∨ c.toNat = 95 := by
  simp only [isWordChar, Char.isAlpha, Bool.or_eq_true, decide_eq_true_eq] at h
  rcases h with ((h | h) | h) | h
  · exact Or.inl (char_isUpper_iff.mp h)
  · exact Or.inr (Or.inl (char_isLower_iff.mp h))
  · exact Or.inr (Or.inr (Or.inl (char_isDigit_iff.mp h)))
  · exact Or.inr (Or.inr (Or.inr (by rw [h]; rfl)))

theorem isPySpace_toNat {c : Char} (h : isPySpace c = true) :
    c.toNat = 32 ∨ c.toNat = 9 ∨ c.toNat = 10 ∨ c.toNat = 13 ∨
      c.toNat = 11 ∨ c.toNat = 12 := by
  simp only [isPySpace, Bool.or_eq_true, decide_eq_true_eq] at h
  rcases h with ((((h | h) | h) | h) | h) | h <;> rw [h] <;> decide

theorem isLowerWord_not_space {c : Char} (h : Helpers.isLowerWord c = true) :
    isPySpace c = false := by
  cases hsp : isPySpace c with
  | false => rfl
  | true =>
    exfalso
    rcases isLowerWord_toNat h with h1 | h1 | h1 <;>
      rcases isPySpace_toNat hsp with h2 | h2 | h2 | h2 | h2 | h2 <;> omega

theorem toLower_eq_self_of_not_upper {c : Char}
    (h : ¬(65 ≤ c.toNat ∧ c.toNat ≤ 90)) : Char.toLower c = c := by
  simp only [Char.toLower]
  rw [if_neg (fun hx => h ⟨hx.1, hx.2⟩)]

theorem isLower_toLower_of_upper {c : Char}
    (h : 65 ≤ c.toNat ∧ c.toNat ≤ 90) : (Char.toLower c).isLower = true := by
  have hv : Nat.isValidChar (c.toNat + 32) := Or.inl (by omega)
  simp only [Char.toLower]
  rw [if_pos ⟨h.1, h.2⟩]
  apply char_isLower_iff.mpr
  rw [char_toNat_ofNat _ hv]
  omega

theorem isLowerWord_toLower {c : Char} (h : isWordChar c = true) :
    Helpers.isLowerWord (Char.toLower c) = true := by
  by_cases hu : 65 ≤ c.toNat ∧ c.toNat ≤ 90
  · simp only [Helpers.isLowerWord, Bool.or_eq_true]
    exact Or.inl (Or.inl (isLower_toLower_of_upper hu))
  · rw [toLower_eq_self_of_not_upper hu]
    simp only [Helpers.isLowerWord, Bool.or_eq_true, decide_eq_true_eq]
    rcases isWordChar_toNat h with h1 | h1 | h1 | h1
    · exact absurd h1 hu
    · exact Or.inl (Or.inl (char_isLower_iff.mpr h1))
    · exact Or.inl (Or.inr (char_isDigit_iff.mpr h1))
    · exact Or.inr (char_eq_of_toNat_eq (by rw [h1]; rfl))

theorem isLowerWord_isWordChar {c : Char} (h : Helpers.isLowerWord c = true) :
    isWordChar c = true := by
  simp only [Helpers.isLowerWord, Bool.or_eq_true, decide_eq_true_eq] at h
  simp only [isWordChar, Char.isAlpha, Bool.or_eq_true, decide_eq_true_eq]
  rcases h with (h | h) | h
  · exact Or.inl (Or.inl (Or.inr h))
  · exact Or.inl (Or.inr h)
  · exact Or.inr h

theorem filter_all (p : Char -> Bool) (l : List Char) :
    (l.filter p).all p = true := by
  rw [List.all_eq_true]
  intro x hx
  exact (List.mem_filter.mp hx).2

namespace Helpers

theorem length_replaceUU_le : ∀ l : List Char, (replaceUU l).length ≤ l.length
  | [] => by simp [replaceUU]
  | [c] => by simp [replaceUU]
  | a :: b :: r => by
    simp only [replaceUU]
    split
    · have := length_replaceUU_le r
      simp only [List.length_cons]
      omega
    · have := length_replaceUU_le (b :: r)
      simp only [List.length_cons] at this ⊢
      omega

theorem length_replaceUU_lt : ∀ l : List Char, hasUU l = true →
    (replaceUU l).length < l.length
  | [], h => by simp [hasUU] at h
  | [c], h => by simp [hasUU] at h
  | a :: b :: r, h => by
    simp only [hasUU, Bool.or_eq_true] at h
    simp only [replaceUU]
    rcases h with h | h
    · simp only [h, if_true]
      have := length_replaceUU_le r
      simp only [List.length_cons]
      omega
    · by_cases hab : (a = '_' && b = '_') = true
      · simp only [hab, if_true]
        have := length_replaceUU_le r
        simp only [List.length_cons]
        omega
      · simp only [hab, Bool.false_eq_true, if_false]
        have := length_replaceUU_lt (b :: r) h
        simp only [List.length_cons] at this ⊢
        omega

theorem all_replaceUU {p : Char → Bool} : ∀ l : List Char,
    l.all p = true → (replaceUU l).all p = true
  | [], h => h
  | [c], h => h
  | a :: b :: r, h => by
    simp only [List.all_cons, Bool.and_eq_true] at h
    simp only [replaceUU]
    split
    · rename_i hab
      simp only [Bool.and_eq_true, decide_eq_true_eq] at hab
      simp only [List.all_cons, Bool.and_eq_true]
      exact ⟨hab.1 ▸ h.1, all_replaceUU r h.2.2⟩
    · simp only [List.all_cons, Bool.and_eq_true]
      exact ⟨h.1, all_replaceUU (b :: r) (by simp [List.all_cons, h.2.1, h.2.2])⟩

theorem all_collapseUAux {p : Char → Bool} :
    ∀ (fuel : Nat) (l : List Char), l.all p = true →
    (collapseUAux fuel l).all p = true := by
  intro fuel
  induction fuel with
  | zero => intro l h; exact h
  | succ k ih =>
    intro l h
    simp only [collapseUAux]
    split
    · exact ih _ (all_replaceUU l h)
    · exact h

theorem collapseUAux_of_no_uu {fuel : Nat} {l : List Char}
    (h : hasUU l = false) : collapseUAux fuel l = l := by
  cases fuel with
  | zero => rfl
  | succ k => simp [collapseUAux, h]

theorem hasUU_collapseUAux : ∀ (fuel : Nat) (l : List Char),
    l.length ≤ fuel → hasUU (collapseUAux fuel l) = false := by
  intro fuel
  induction fuel with
  | zero =>
    intro l h
    have : l = [] := List.length_eq_zero.mp (Nat.le_zero.mp h)
    subst this
    rfl
  | succ k ih =>
    intro l h
    simp only [collapseUAux]
    by_cases huu : hasUU l = true
    · rw [if_pos huu]
      exact ih _ (by have := length_replaceUU_lt l huu; omega)
    · rw [if_neg huu]
      exact Bool.not_eq_true _ |>.mp huu

theorem hasUU_collapseU (l : List Char) : hasUU (collapseU l) = false :=
  hasUU_collapseUAux l.length l (Nat.le_refl _)

theorem hasUU_append_right : ∀ (a : List Char) {b : List Char},
    hasUU b = true → hasUU (a ++ b) = true
  | [], _, h => h
  | c :: a2, b, h => by
    cases hab : a2 ++ b with
    | nil =>
      rcases List.append_eq_nil.mp hab with ⟨_, hb⟩
      rw [hb] at h
      simp [hasUU] at h
    | cons d t =>
      have := hasUU_append_right a2 h
      rw [hab] at this
      simp only [List.cons_append, hab, hasUU, Bool.or_eq_true]
      exact Or.inr this

theorem hasUU_append_left : ∀ {a : List Char} (b : List Char),
    hasUU a = true → hasUU (a ++ b) = true
  | [], _, h => by simp [hasUU] at h
  | [c], _, h => by simp [hasUU] at h
  | a :: b0 :: r, b, h => by
    simp only [hasUU, Bool.or_eq_true] at h
    simp only [List.cons_append, hasUU, Bool.or_eq_true]
    rcases h with h | h
    · exact Or.inl h
    · exact Or.inr (by simpa using hasUU_append_left (a := b0 :: r) b h)

theorem hasUU_dropWhile_of_no_uu {p : Char → Bool} {l : List Char}
    (h : hasUU l = false) : hasUU (l.dropWhile p) = false := by
  cases h2 : hasUU (l.dropWhile p) with
  | false => rfl
  | true =>
    have := hasUU_append_right (l.takeWhile p) h2
    rw [List.takeWhile_append_dropWhile] at this
    rw [this] at h
    exact absurd h (by simp)

theorem hasUU_dropEndWhile_of_no_uu {p : Char → Bool} {l : List Char}
    (h : hasUU l = false) : hasUU (dropEndWhile p l) = false := by
  cases h2 : hasUU (dropEndWhile p l) with
  | false => rfl
  | true =>
    rcases dropEndWhile_app p l with ⟨t, ht⟩
    have := hasUU_append_left (a := dropEndWhile p l) t h2
    rw [← ht] at this
    rw [this] at h
    exact absurd h (by simp)

theorem all_dropWhile {p q : Char → Bool} {l : List Char}
    (h : l.all q = true) : (l.dropWhile p).all q = true := by
  rw [List.all_eq_true] at h ⊢
  intro x hx
  exact h x ((List.dropWhile_sublist p).subset hx)

theorem all_dropEndWhile {p q : Char → Bool} {l : List Char}
    (h : l.all q = true) : (dropEndWhile p l).all q = true := by
  rcases dropEndWhile_app p l with ⟨t, ht⟩
  rw [List.all_eq_true] at h ⊢
  intro x hx
  exact h x (ht ▸ List.mem_append_left t hx)

theorem dropWhile_head_not {p : Char → Bool} : ∀ {l : List Char} {c : Char}
    {rest : List Char}, l.dropWhile p = c :: rest → p c = false := by
  intro l
  induction l with
  | nil => intro c rest h; simp at h
  | cons x xs ih =>
    intro c rest h
    by_cases hx : p x = true
    · rw [List.dropWhile_cons_of_pos hx] at h
      exact ih h
    · rw [List.dropWhile_cons_of_neg hx] at h
      have : x = c := (List.cons.inj h).1
      rw [← this]
      exact Bool.not_eq_true _ |>.mp hx

theorem dropEndWhile_cons_eq (p : Char → Bool) (c : Char) (r : List Char) :
    dropEndWhile p (c :: r) =
      match dropEndWhile p r with
      | [] => if p c then [] else [c]
      | x :: xs => c :: x :: xs := rfl

theorem dropEndWhile_head {p : Char → Bool} {l : List Char} {c : Char}
    {rest : List Char}
    (h : dropEndWhile p l = c :: rest) : ∃ r0, l = c :: r0 := by
  cases l with
  | nil => simp [dropEndWhile] at h
  | cons x xs =>
    rw [dropEndWhile_cons_eq] at h
    split at h
    · split at h
      · simp at h
      · exact ⟨xs, by rw [(List.cons.inj h).1]⟩
    · exact ⟨xs, by rw [(List.cons.inj h).1]⟩

theorem dropEndWhile_idem {p : Char → Bool} : ∀ l : List Char,
    dropEndWhile p (dropEndWhile p l) = dropEndWhile p l := by
  intro l
  induction l with
  | nil => rfl
  | cons c r ih =>
    rw [dropEndWhile_cons_eq]
    cases h : dropEndWhile p r with
    | nil =>
      by_cases hc : p c = true
      · simp [hc, dropEndWhile]
      · simp [hc, dropEndWhile_cons_eq, dropEndWhile]
    | cons x xs =>
      rw [h] at ih
      show dropEndWhile p (c :: x :: xs) = c :: x :: xs
      rw [dropEndWhile_cons_eq, ih]

theorem dropEndWhile_eq_self {p : Char → Bool} : ∀ {l : List Char},
    (∀ x ∈ l, p x = false) → dropEndWhile p l = l := by
  intro l
  induction l with
  | nil => intro _; rfl
  | cons c r ih =>
    intro h
    have hr : dropEndWhile p r = r := ih (fun x hx => h x (List.mem_cons_of_mem c hx))
    rw [dropEndWhile_cons_eq, hr]
    cases r with
    | nil => simp [h c (List.mem_cons_self c [])]
    | cons x xs => rfl

theorem dropEndWhile_append {p : Char → Bool} : ∀ (a : List Char) {b : List Char},
    dropEndWhile p b = b → b ≠ [] →
    dropEndWhile p (a ++ b) = a ++ b := by
  intro a
  induction a with
  | nil => intro b h _; exact h
  | cons c a2 ih =>
    intro b h hb
    have hrec : dropEndWhile p (a2 ++ b) = a2 ++ b := ih h hb
    rw [List.cons_append, dropEndWhile_cons_eq, hrec]
    cases hsh : a2 ++ b with
    | nil => exact absurd (List.append_eq_nil.mp hsh).2 hb
    | cons y ys => rfl

theorem map_eq_self_of {f : Char → Char} {l : List Char}
    (h : ∀ c ∈ l, f c = c) : l.map f = l := by
  induction l with
  | nil => rfl
  | cons c r ih =>
    simp only [List.map_cons]
    rw [h c (List.mem_cons_self c r), ih (fun x hx => h x (List.mem_cons_of_mem c hx))]


theorem all_map_toLower {l : List Char} (h : l.all isWordChar = true) :
    (l.map Char.toLower).all isLowerWord = true := by
  rw [List.all_eq_true] at h ⊢
  intro x hx
  rcases List.mem_map.mp hx with ⟨y, hy, rfl⟩
  exact isLowerWord_toLower (h y hy)

theorem sanitize_good (s : String) :
    validEnvName (sanitize_env_name s).data = true ∧
    hasUU (sanitize_env_name s).data = false ∧
    dropEndWhile (fun c => c = '_') (sanitize_env_name s).data =
      (sanitize_env_name s).data := by
  unfold sanitize_env_name
  split
  · exact ⟨by decide, by decide, by decide⟩
  · set m := stripU (collapseU (((replaceChar '-' '_'
      (replaceChar ' ' '_' s.data)).filter isWordChar).map Char.toLower))
      with hm
    clear_value m
    have hall : m.all isLowerWord = true := by
      rw [hm, stripU, pyStripWith]
      exact all_dropEndWhile (all_dropWhile
        (all_collapseUAux _ _ (all_map_toLower (filter_all _ _))))
    have hUU : hasUU m = false := by
      rw [hm, stripU, pyStripWith]
      exact hasUU_dropEndWhile_of_no_uu (hasUU_dropWhile_of_no_uu
        (hasUU_collapseU _))
    have hfix : dropEndWhile (fun c => c = '_') m = m := by
      rw [hm, stripU, pyStripWith]
      exact dropEndWhile_idem _
    have hhead : ∀ c rest, m = c :: rest → (c = '_') = False := by
      intro c rest hme
      rw [hm, stripU, pyStripWith] at hme
      rcases dropEndWhile_head hme with ⟨r0, hr0⟩
      have := dropWhile_head_not hr0
      simpa using this
    split
    · exact ⟨by decide, by decide, by decide⟩
    · rename_i c r
      simp only [List.all_cons, Bool.and_eq_true] at hall
      have hcu : (c = '_') = False := hhead c r rfl
      by_cases hd : c.isDigit = true
      · rw [if_pos hd]
        refine ⟨?_, ?_, ?_⟩
        · show validEnvName ('e' :: 'n' :: 'v' :: '_' :: c :: r) = true
          simp only [validEnvName, List.all_cons, Bool.and_eq_true]
          refine ⟨by decide, by decide, by decide, by decide, ?_, hall.2⟩
          simp [isLowerWord, hd]
        · show hasUU ('e' :: 'n' :: 'v' :: '_' :: c :: r) = false
          simp [hasUU, hUU, hcu]
        · show dropEndWhile (fun c => c = '_') (['e', 'n', 'v', '_'] ++ c :: r) =
            ['e', 'n', 'v', '_'] ++ c :: r
          exact dropEndWhile_append _ hfix (by simp)
      · rw [if_neg hd]
        refine ⟨?_, hUU, hfix⟩
        show validEnvName (c :: r) = true
        simp only [validEnvName, Bool.and_eq_true]
        refine ⟨?_, hall.2⟩
        rcases isLowerWord_toNat hall.1 with h1 | h1 | h1
        · exact char_isLower_iff.mpr h1
        · exact absurd (char_isDigit_iff.mpr h1) hd
        · exact absurd (char_eq_of_toNat_eq (by rw [h1]; decide)) (fun he => hcu ▸ he)

theorem sanitize_fix {l : List Char} (hv : validEnvName l = true)
    (hUU : hasUU l = false)
    (hfix : dropEndWhile (fun c => c = '_') l = l) :
    sanitize_env_name ⟨l⟩ = ⟨l⟩ := by
  cases l with
  | nil => simp [validEnvName] at hv
  | cons c r =>
    simp only [validEnvName, Bool.and_eq_true] at hv
    have hcl : c.isLower = true := hv.1
    have hall : (c :: r).all isLowerWord = true := by
      simp only [List.all_cons, Bool.and_eq_true]
      exact ⟨by simp [isLowerWord, hcl], hv.2⟩
    have hns : ∀ x ∈ c :: r, isPySpace x = false := by
      intro x hx
      exact isLowerWord_not_space (List.all_eq_true.mp hall x hx)
    have hcn : isPySpace c = false := hns c (List.mem_cons_self c r)
    have hstrip : pyStripL (c :: r) = c :: r := by
      rw [pyStripL, pyStripWith, List.dropWhile_cons_of_neg (by simp [hcn])]
      exact dropEndWhile_eq_self hns
    have hrep : replaceChar '-' '_' (replaceChar ' ' '_' (c :: r)) = c :: r := by
      have h1 : replaceChar ' ' '_' (c :: r) = c :: r := by
        apply map_eq_self_of
        intro x hx
        have hlw := List.all_eq_true.mp hall x hx
        have : (x = ' ') = False := by
          simp only [eq_iff_iff, iff_false]
          intro he
          rcases isLowerWord_toNat hlw with h1 | h1 | h1 <;> rw [he] at h1 <;>
            revert h1 <;> decide
        simp [this]
      rw [h1]
      apply map_eq_self_of
      intro x hx
      have hlw := List.all_eq_true.mp hall x hx
      have : (x = '-') = False := by
        simp only [eq_iff_iff, iff_false]
        intro he
        rcases isLowerWord_toNat hlw with h1 | h1 | h1 <;> rw [he] at h1 <;>
          revert h1 <;> decide
      simp [this]
    have hfil : (c :: r).filter isWordChar = c :: r :=
      List.filter_eq_self.mpr (fun x hx =>
        isLowerWord_isWordChar (List.all_eq_true.mp hall x hx))
    have hlow : (c :: r).map Char.toLower = c :: r := by
      apply map_eq_self_of
      intro x hx
      apply toLower_eq_self_of_not_upper
      rcases isLowerWord_toNat (List.all_eq_true.mp hall x hx) with h1 | h1 | h1 <;>
        omega
    have hcol : collapseU (c :: r) = c :: r := collapseUAux_of_no_uu hUU
    have hstu : stripU (c :: r) = c :: r := by
      rw [stripU, pyStripWith]
      have hcu : (decide (c = '_')) = false := by
        apply decide_eq_false
        intro he
        have := char_isLower_iff.mp hcl
        rw [he] at this
        revert this
        decide
      rw [List.dropWhile_cons_of_neg (by simp only [hcu]; exact Bool.false_ne_true)]
      exact hfix
    have hnd : c.isDigit = false := by
      cases hdd : c.isDigit with
      | false => rfl
      | true =>
        have h1 := char_isLower_iff.mp hcl
        have h2 := char_isDigit_iff.mp hdd
        omega
    unfold sanitize_env_name
    rw [if_neg (by simp [hstrip])]
    rw [hrep, hfil, hlow, hcol, hstu]
    simp [hnd]

end Helpers


/-! General list lemmas for the progress and refinement arguments. -/

theorem eq_append_of_isPrefixOf : ∀ {a l : List Char},
    a.isPrefixOf l = true → ∃ t, l = a ++ t := by
  intro a
  induction a with
  | nil => intro l _; exact ⟨l, rfl⟩
  | cons c r ih =>
    intro l h
    cases l with
    | nil => simp [List.isPrefixOf] at h
    | cons x xs =>
      simp only [List.isPrefixOf, Bool.and_eq_true, beq_iff_eq] at h
      rcases ih h.2 with ⟨t, ht⟩
      exact ⟨t, by rw [List.cons_append, ← ht, h.1]⟩

theorem exists_not_of_filter_ne {p : List Char → Bool} :
    ∀ {L : List (List Char)}, L.filter p ≠ L → ∃ x ∈ L, p x = false := by
  intro L
  induction L with
  | nil => intro h; exact absurd rfl h
  | cons y t ih =>
    intro h
    cases hy : p y with
    | true =>
      rw [List.filter_cons_of_pos hy] at h
      have ht : t.filter p ≠ t := fun he => h (by rw [he])
      rcases ih ht with ⟨x, hx, hpx⟩
      exact ⟨x, List.mem_cons_of_mem y hx, hpx⟩
    | false => exact ⟨y, List.mem_cons_self y t, hy⟩

theorem sum_map_filter_eq_of_zero {f : List Char → Nat} {p : List Char → Bool} :
    ∀ {L : List (List Char)}, (∀ x ∈ L, p x = false → f x = 0) →
    ((L.filter p).map f).sum = (L.map f).sum := by
  intro L
  induction L with
  | nil => intro _; rfl
  | cons y t ih =>
    intro h
    have ht := ih (fun x hx => h x (List.mem_cons_of_mem y hx))
    cases hy : p y with
    | true => simp [List.filter_cons_of_pos hy, ht]
    | false =>
      rw [List.filter_cons_of_neg (by simp [hy])]
      simp [ht, h y (List.mem_cons_self y t) hy]

theorem nwc_pos_of_dash_space {l : List Char}
    (h : ("- ".data).isPrefixOf (pyStripL l) = true) : 1 ≤ nwc l := by
  rcases eq_append_of_isPrefixOf h with ⟨t, ht⟩
  have h1 : 1 ≤ nwc (pyStripL l) := by
    rw [ht, nwc_append]
    have : nwc ("- ".data) = 1 := by decide
    omega
  rwa [nwc_pyStripL] at h1

theorem nwc_pos_of_dash {l : List Char}
    (h : ("-".data).isPrefixOf (pyStripL l) = true) : 1 ≤ nwc l := by
  rcases eq_append_of_isPrefixOf h with ⟨t, ht⟩
  have h1 : 1 ≤ nwc (pyStripL l) := by
    rw [ht, nwc_append]
    have : nwc ("-".data) = 1 := by decide
    omega
  rwa [nwc_pyStripL] at h1

namespace EnvironmentFixer

theorem removeFirst_sum_lt :
    ∀ {L : List (List Char)},
    (∃ l ∈ L, (("- ".data).isPrefixOf (pyStripL l) &&
      !(occursIn ("pip".data) l)) = true) →
    ((removeFirstCondaDep L).map nwc).sum < (L.map nwc).sum := by
  intro L
  induction L with
  | nil => intro h; simp at h
  | cons y t ih =>
    intro h
    by_cases hy : (("- ".data).isPrefixOf (pyStripL y) &&
        !(occursIn ("pip".data) y)) = true
    · rw [removeFirstCondaDep, if_pos hy]
      have hnw : 1 ≤ nwc y :=
        nwc_pos_of_dash_space (Bool.and_eq_true _ _ |>.mp hy).1
      simp only [List.map_cons, List.sum_cons]
      omega
    · rw [removeFirstCondaDep, if_neg hy]
      rcases h with ⟨l, hl, hcond⟩
      rcases List.mem_cons.mp hl with h1 | h1
      · exact absurd (h1 ▸ hcond) hy
      · have := ih ⟨l, h1, hcond⟩
        simp only [List.map_cons, List.sum_cons]
        omega

theorem shouldRemove_nwc_pos {pkgs : List (List Char)} {line : List Char}
    (h : shouldRemove pkgs line = true) : 1 ≤ nwc line := by
  simp only [shouldRemove, List.any_eq_true, Bool.and_eq_true] at h
  rcases h with ⟨p, _, _, hdash⟩
  exact nwc_pos_of_dash hdash

theorem nwc_normalize (s : String) :
    nwc (normalize s).data = nwc s.data := by
  show nwc (joinNl (List.insertionSort (fun a b => lexLe a b = true)
    (normLines s))) = nwc s.data
  rw [nwc_joinNl]
  have hperm : ((List.insertionSort (fun a b => lexLe a b = true)
      (normLines s)).map nwc).sum = ((normLines s).map nwc).sum :=
    ((List.perm_insertionSort _ _).map nwc).sum_eq
  rw [hperm]
  show (((((splitNl (pyStripL s.data)).map pyStripL).filter
    (fun l => !l.isEmpty)).map nwc)).sum = nwc s.data
  rw [sum_map_filter_eq_of_zero (by
    intro x _ hx
    have : x = [] := by
      cases x with
      | nil => rfl
      | cons c r => simp at hx
    rw [this]
    rfl)]
  rw [List.map_map]
  have : ((splitNl (pyStripL s.data)).map (nwc ∘ pyStripL)).sum =
      ((splitNl (pyStripL s.data)).map nwc).sum := by
    congr 1
    apply List.map_congr_left
    intro a _
    exact nwc_pyStripL a
  rw [this, nwc_splitNl_sum, nwc_pyStripL]

theorem commonRemoval_nwc_lt (yml err : String)
    (hdep : ∃ l ∈ splitNl yml.data, (("- ".data).isPrefixOf (pyStripL l) &&
      !(occursIn ("pip".data) l)) = true) :
    nwc (commonRemoval yml err).data < nwc yml.data := by
  unfold commonRemoval
  by_cases hk : (splitNl yml.data).filter
      (fun line => !(shouldRemove (problemPackages err.data) line)) =
      splitNl yml.data
  · have hfx : joinNl ((splitNl yml.data).filter
        (fun line => !(shouldRemove (problemPackages err.data) line))) =
        yml.data := by
      rw [hk]
      exact joinNl_splitNl _
    rw [if_pos (by rw [hfx]; exact beq_self_eq_true _)]
    show nwc (joinNl (removeFirstCondaDep (splitNl yml.data))) < nwc yml.data
    rw [nwc_joinNl]
    conv_rhs => rw [← joinNl_splitNl yml.data, nwc_joinNl]
    exact removeFirst_sum_lt hdep
  · rcases exists_not_of_filter_ne hk with ⟨x, hx, hpx⟩
    have hsr : shouldRemove (problemPackages err.data) x = true := by
      simpa using hpx
    have hlt : (((splitNl yml.data).filter
        (fun line => !(shouldRemove (problemPackages err.data) line))).map
          nwc).sum < ((splitNl yml.data).map nwc).sum :=
      sum_map_filter_lt _ _ _ x hx hpx (shouldRemove_nwc_pos hsr)
    have hne : (pyStripL (joinNl ((splitNl yml.data).filter
        (fun line => !(shouldRemove (problemPackages err.data) line)))) ==
        pyStripL yml.data) = false := by
      cases hbe : (pyStripL (joinNl ((splitNl yml.data).filter
          (fun line => !(shouldRemove (problemPackages err.data) line)))) ==
          pyStripL yml.data) with
      | false => rfl
      | true =>
        exfalso
        have heq := beq_iff_eq.mp hbe
        have h1 := congrArg nwc heq
        rw [nwc_pyStripL, nwc_pyStripL, nwc_joinNl] at h1
        conv_rhs at h1 => rw [← joinNl_splitNl yml.data, nwc_joinNl]
        omega
    rw [if_neg (by simp [hne])]
    show nwc (joinNl ((splitNl yml.data).filter
      (fun line => !(shouldRemove (problemPackages err.data) line)))) <
      nwc yml.data
    rw [nwc_joinNl]
    conv_rhs => rw [← joinNl_splitNl yml.data, nwc_joinNl]
    exact hlt

theorem force_remove_nwc_lt (yml err : String)
    (hcudnn : occursIn ("cudnn".data) (pyLowerL err.data) = false)
    (hdep : ∃ l ∈ splitNl yml.data, (("- ".data).isPrefixOf (pyStripL l) &&
      !(occursIn ("pip".data) l)) = true) :
    nwc (force_remove_problematic_package yml err).data < nwc yml.data := by
  unfold force_remove_problematic_package
  rw [if_neg (by simp [hcudnn])]
  exact commonRemoval_nwc_lt yml err hdep

end EnvironmentFixer


/-! Lemmas about the markdown-fence cleanup: dropping a first or last
line and stripping can only delete text, so any substring of the cleaned
output already occurs in the raw oracle response. -/

theorem occursIn_joinNl_tail {pat : List Char} :
    ∀ {L : List (List Char)}, occursIn pat (joinNl (L.drop 1)) = true →
    occursIn pat (joinNl L) = true := by
  intro L h
  cases L with
  | nil => simpa using h
  | cons x rest =>
    cases rest with
    | nil =>
      simp only [joinNl, List.drop_succ_cons, List.drop_zero] at h ⊢
      simp only [occursIn] at h
      cases pat with
      | nil => exact occursIn_nil_pat x
      | cons p ps => simp [List.isPrefixOf] at h
    | cons y t =>
      rw [joinNl_cons _ _ (by simp)]
      simp only [List.drop_succ_cons, List.drop_zero] at h
      have : x ++ '\n' :: joinNl (y :: t) = (x ++ ['\n']) ++ joinNl (y :: t) := by
        simp
      rw [this]
      exact occursIn_append_right _ h

theorem joinNl_dropLast_app :
    ∀ L : List (List Char), ∃ suf, joinNl L = joinNl L.dropLast ++ suf := by
  intro L
  induction L with
  | nil => exact ⟨[], rfl⟩
  | cons x rest ih =>
    cases rest with
    | nil => exact ⟨x, by simp [joinNl]⟩
    | cons y t =>
      have hd : (x :: y :: t).dropLast = x :: (y :: t).dropLast := by
        simp [List.dropLast]
      rcases ih with ⟨suf, hsuf⟩
      cases hdl : (y :: t).dropLast with
      | nil =>
        refine ⟨'\n' :: joinNl (y :: t), ?_⟩
        rw [joinNl_cons _ _ (by simp), hd, hdl]
        simp [joinNl]
      | cons z zs =>
        refine ⟨suf, ?_⟩
        rw [joinNl_cons _ _ (by simp), hd, hsuf, hdl]
        conv_rhs => rw [joinNl_cons _ _ (by simp)]
        simp [List.append_assoc]

theorem occursIn_joinNl_dropLast {pat : List Char} {L : List (List Char)}
    (h : occursIn pat (joinNl L.dropLast) = true) :
    occursIn pat (joinNl L) = true := by
  rcases joinNl_dropLast_app L with ⟨suf, hsuf⟩
  rw [hsuf]
  exact occursIn_append_left suf h

namespace EnvironmentBuilder

theorem occursIn_clean_markdown {pat : List Char} (content : String)
    (h : occursIn pat (clean_markdown content).data = true) :
    occursIn pat content.data = true := by
  have step : ∀ X : List (List Char), occursIn pat (joinNl X) = true →
      (X = ((splitNl content.data).drop 1).dropLast ∨
       X = (splitNl content.data).drop 1 ∨
       X = (splitNl content.data).dropLast ∨
       X = splitNl content.data) →
      occursIn pat content.data = true := by
    intro X hX hor
    have hfin : occursIn pat (joinNl (splitNl content.data)) = true := by
      rcases hor with h1 | h1 | h1 | h1
      · exact occursIn_joinNl_tail (occursIn_joinNl_dropLast (h1 ▸ hX))
      · exact occursIn_joinNl_tail (h1 ▸ hX)
      · exact occursIn_joinNl_dropLast (h1 ▸ hX)
      · exact h1 ▸ hX
    rwa [joinNl_splitNl] at hfin
  unfold clean_markdown at h
  by_cases hf : ("```".data).isPrefixOf content.data = true
  · rw [if_pos hf] at h
    dsimp only at h
    by_cases h1 : ("```".data).isPrefixOf ((splitNl content.data).headD []) = true
    · rw [if_pos h1] at h
      by_cases h2 : (!((splitNl content.data).drop 1).isEmpty &&
          ("```".data).isPrefixOf (((splitNl content.data).drop 1).getLastD [])) = true
      · rw [if_pos h2] at h
        exact step _ h (Or.inl rfl)
      · rw [if_neg h2] at h
        exact step _ h (Or.inr (Or.inl rfl))
    · rw [if_neg h1] at h
      by_cases h2 : (!(splitNl content.data).isEmpty &&
          ("```".data).isPrefixOf ((splitNl content.data).getLastD [])) = true
      · rw [if_pos h2] at h
        exact step _ h (Or.inr (Or.inr (Or.inl rfl)))
      · rw [if_neg h2] at h
        exact step _ h (Or.inr (Or.inr (Or.inr rfl)))
  · rwa [if_neg hf] at h

theorem occursIn_build_output {pat : List Char} (resp : String)
    (h : occursIn pat (build_from_summary_dict_output resp).data = true) :
    occursIn pat resp.data = true := by
  have h1 := occursIn_clean_markdown (pyStrip resp) h
  exact occursIn_pyStripWith isPySpace resp.data h1

end EnvironmentBuilder

/-! Lemmas reading the normalized comparison of the fixer back as a
statement about multisets of trimmed nonblank lines. -/

namespace EnvironmentFixer

theorem normLines_elem {y : String} {seg : List Char}
    (h : seg ∈ normLines y) : seg ≠ [] ∧ '\n' ∉ seg := by
  unfold normLines at h
  rcases List.mem_filter.mp h with ⟨hmem, hne⟩
  constructor
  · intro he
    rw [he] at hne
    simp at hne
  · rcases List.mem_map.mp hmem with ⟨seg0, hseg0, rfl⟩
    have hnl : '\n' ∉ seg0 := newline_not_mem_splitNl _ seg0 hseg0
    intro hmem2
    apply hnl
    rcases pyStripWith_app isPySpace seg0 with ⟨a, b, hab⟩
    rw [hab]
    exact List.mem_append_left b (List.mem_append_right a hmem2)

theorem sorted_normLines_elem {y : String} {seg : List Char}
    (h : seg ∈ List.insertionSort (fun a b => lexLe a b = true) (normLines y)) :
    seg ≠ [] ∧ '\n' ∉ seg :=
  normLines_elem ((List.perm_insertionSort _ _).subset h)

theorem are_yamls_identical_iff (y1 y2 : String) :
    are_yamls_identical y1 y2 = true ↔
      List.Perm (normLines y1) (normLines y2) := by
  letI : IsTotal (List Char) (fun a b => lexLe a b = true) := ⟨lexLe_total⟩
  letI : IsTrans (List Char) (fun a b => lexLe a b = true) :=
    ⟨fun _ _ _ h1 h2 => lexLe_trans h1 h2⟩
  letI : IsAntisymm (List Char) (fun a b => lexLe a b = true) :=
    ⟨fun _ _ h1 h2 => lexLe_antisymm h1 h2⟩
  constructor
  · intro h
    have heq : normalize y1 = normalize y2 := beq_iff_eq.mp h
    have hdata : joinNl (List.insertionSort (fun a b => lexLe a b = true)
        (normLines y1)) = joinNl (List.insertionSort
        (fun a b => lexLe a b = true) (normLines y2)) :=
      congrArg String.data heq
    have hlists := joinNl_inj
      (fun seg hs => sorted_normLines_elem hs)
      (fun seg hs => sorted_normLines_elem hs) hdata
    have p2 : List.Perm (List.insertionSort (fun a b => lexLe a b = true)
        (normLines y1)) (normLines y2) := by
      rw [hlists]
      exact List.perm_insertionSort _ _
    exact (List.perm_insertionSort _ _).symm.trans p2
  · intro h
    have hsort : List.insertionSort (fun a b => lexLe a b = true)
        (normLines y1) = List.insertionSort (fun a b => lexLe a b = true)
        (normLines y2) := by
      have hs1 : List.Sorted (fun a b => lexLe a b = true)
          (List.insertionSort (fun a b => lexLe a b = true) (normLines y1)) :=
        List.sorted_insertionSort _ _
      have hs2 : List.Sorted (fun a b => lexLe a b = true)
          (List.insertionSort (fun a b => lexLe a b = true) (normLines y2)) :=
        List.sorted_insertionSort _ _
      exact List.eq_of_perm_of_sorted
        (((List.perm_insertionSort _ _).trans h).trans
          (List.perm_insertionSort _ _).symm) hs1 hs2
    show (normalize y1 == normalize y2) = true
    apply beq_iff_eq.mpr
    show (⟨joinNl (List.insertionSort (fun a b => lexLe a b = true)
      (normLines y1))⟩ : String) = ⟨joinNl (List.insertionSort
      (fun a b => lexLe a b = true) (normLines y2))⟩
    rw [hsort]

end EnvironmentFixer


/-! Lemmas about the retry loop of main. -/

namespace MainV2

theorem runLoopAux_succ (mat : Nat → String → Bool × String)
    (fixer : String → String → String) (k attempt : Nat) (yml : String) :
    runLoopAux mat fixer (k + 1) attempt yml =
      (let res := mat attempt yml
       if res.1 then ⟨.succeeded, 1, 0, yml⟩
       else if k = 0 then ⟨.exhausted, 1, 0, yml⟩
       else
         let fixed := fixer yml res.2
         let r := runLoopAux mat fixer k (attempt + 1) fixed
         ⟨r.outcome, r.matCalls + 1, r.fixCalls + 1, r.finalYml⟩) := rfl

theorem runLoopAux_le (mat : Nat → String → Bool × String)
    (fixer : String → String → String) :
    ∀ (k a : Nat) (y : String),
    (runLoopAux mat fixer k a y).matCalls ≤ k ∧
    (runLoopAux mat fixer k a y).fixCalls ≤ k - 1 := by
  intro k
  induction k with
  | zero =>
    intro a y
    exact ⟨Nat.le_refl 0, Nat.le_refl 0⟩
  | succ k ih =>
    intro a y
    rw [runLoopAux_succ]
    dsimp only
    by_cases h1 : (mat a y).1 = true
    · rw [if_pos h1]
      exact ⟨by show 1 ≤ k + 1; omega, by show 0 ≤ k + 1 - 1; omega⟩
    · rw [if_neg h1]
      by_cases h2 : k = 0
      · rw [if_pos h2]
        exact ⟨by show 1 ≤ k + 1; omega, by show 0 ≤ k + 1 - 1; omega⟩
      · rw [if_neg h2]
        have h3 := ih (a + 1) (fixer y (mat a y).2)
        refine ⟨?_, ?_⟩
        · show (runLoopAux mat fixer k (a + 1)
            (fixer y (mat a y).2)).matCalls + 1 ≤ k + 1
          omega
        · show (runLoopAux mat fixer k (a + 1)
            (fixer y (mat a y).2)).fixCalls + 1 ≤ k + 1 - 1
          omega

theorem runLoopAux_exhausted (mat : Nat → String → Bool × String)
    (fixer : String → String → String)
    (hfail : ∀ a y, (mat a y).1 = false) :
    ∀ (k a : Nat) (y : String),
    (runLoopAux mat fixer (k + 1) a y).outcome = .exhausted ∧
    (runLoopAux mat fixer (k + 1) a y).matCalls = k + 1 ∧
    (runLoopAux mat fixer (k + 1) a y).fixCalls = k := by
  intro k
  induction k with
  | zero =>
    intro a y
    simp [runLoopAux_succ, hfail a y]
  | succ k ih =>
    intro a y
    rw [runLoopAux_succ]
    dsimp only
    rw [if_neg (by simp [hfail a y])]
    rw [if_neg (by omega : ¬ (k + 1 = 0))]
    have h3 := ih (a + 1) (fixer y (mat a y).2)
    refine ⟨?_, ?_, ?_⟩
    · show (runLoopAux mat fixer (k + 1) (a + 1)
        (fixer y (mat a y).2)).outcome = .exhausted
      exact h3.1
    · show (runLoopAux mat fixer (k + 1) (a + 1)
        (fixer y (mat a y).2)).matCalls + 1 = k + 1 + 1
      omega
    · show (runLoopAux mat fixer (k + 1) (a + 1)
        (fixer y (mat a y).2)).fixCalls + 1 = k + 1
      omega

theorem loopEvents_not_remove (mat : Nat → Bool) :
    ∀ (k a : Nat), MEvent.envRemove ∉ loopEvents mat k a := by
  intro k
  induction k with
  | zero =>
    intro a h
    simp [loopEvents] at h
  | succ k ih =>
    intro a h
    simp only [loopEvents] at h
    rcases List.mem_cons.mp h with h1 | h1
    · exact absurd h1 (by simp)
    · by_cases hm : mat a = true
      · rw [if_pos hm] at h1
        simp at h1
      · rw [if_neg hm] at h1
        by_cases hk : k = 0
        · rw [if_pos hk] at h1
          simp at h1
        · rw [if_neg hk] at h1
          rcases List.mem_cons.mp h1 with h2 | h2
          · exact absurd h2 (by simp)
          · exact ih (a + 1) h2

end MainV2

/-! Invariant of a left fold that only appends elements with a fixed
property. -/

theorem foldl_mem_invariant {α β : Type} (P : β → Prop)
    (step : List β → α → List β)
    (hstep : ∀ acc l x, x ∈ step acc l → x ∈ acc ∨ P x) :
    ∀ (L : List α) (acc : List β), ∀ x ∈ L.foldl step acc, x ∈ acc ∨ P x := by
  intro L
  induction L with
  | nil =>
    intro acc x hx
    exact Or.inl hx
  | cons l r ih =>
    intro acc x hx
    rw [List.foldl_cons] at hx
    rcases ih (step acc l) x hx with h | h
    · exact hstep acc l x h
    · exact Or.inr h

namespace DependencyCollector

theorem extract_imports_mem {content : String} {s : String}
    (h : s ∈ extract_imports_from_file content) :
    STDLIB.contains s = false ∧ (".".data).isPrefixOf s.data = false := by
  have hstep : ∀ (acc : List String) (l : List Char) (x : String),
      x ∈ (fun (acc : List String) (l : List Char) =>
        let line := pyStripL l
        if ("#".data).isPrefixOf line then acc
        else
          match importMatch line with
          | none => acc
          | some module =>
            let top : String := ⟨module.takeWhile (fun c => c ≠ '.')⟩
            if STDLIB.contains top || (".".data).isPrefixOf top.data then acc
            else if acc.contains top then acc else acc ++ [top]) acc l →
      x ∈ acc ∨ (STDLIB.contains x = false ∧
        (".".data).isPrefixOf x.data = false) := by
    intro acc l x hx
    dsimp only at hx
    split at hx
    · exact Or.inl hx
    · split at hx
      · exact Or.inl hx
      · split at hx
        · exact Or.inl hx
        · split at hx
          · exact Or.inl hx
          · rename_i module hcond hacc
            rcases List.mem_append.mp hx with h1 | h1
            · exact Or.inl h1
            · have hx2 := List.mem_singleton.mp h1
              subst hx2
              refine Or.inr ?_
              rw [Bool.not_eq_true, Bool.or_eq_false_iff] at hcond
              exact hcond
  unfold extract_imports_from_file at h
  rcases foldl_mem_invariant _ _ hstep (splitNl content.data) [] s h with h1 | h1
  · exact absurd h1 (List.not_mem_nil s)
  · exact h1

end DependencyCollector

/-! Lemmas about the project-root locator. -/

namespace DecisionAgent

theorem walkScores_pos :
    ∀ (fuel : Nat) (t : DirTree) (d : Nat) (c : List String),
    ∀ x ∈ walkScores fuel t d c, 0 < x.1 := by
  intro fuel
  induction fuel with
  | zero =>
    intro t d c x hx
    simp [walkScores] at hx
  | succ fuel ih =>
    intro t d c x hx
    cases t with
    | node nm files subdirs =>
      simp only [walkScores] at hx
      by_cases hd : d > MAX_SCAN_DEPTH
      · rw [if_pos hd] at hx
        simp at hx
      · rw [if_neg hd] at hx
        rcases List.mem_append.mp hx with h1 | h1
        · by_cases hs : dirScore files
              ((subdirs.filter (fun d => !(IGNORED_DIRS.contains d.name))).map
                DirTree.name) nm > 0
          · rw [if_pos hs] at h1
            have hx2 := List.mem_singleton.mp h1
            subst hx2
            exact hs
          · rw [if_neg hs] at h1
            simp at h1
        · rcases List.mem_flatten.mp h1 with ⟨lst, hlst, hxl⟩
          rcases List.mem_map.mp hlst with ⟨dtree, hdt, hrw⟩
          subst hrw
          exact ih dtree (d + 1) (c ++ [dtree.name]) x hxl

theorem rootLe_iff (a b : Int × List String) :
    rootLe a b = true ↔
      (b.1 < a.1 ∨ (a.1 = b.1 ∧ relPathLen a.2 ≤ relPathLen b.2)) := by
  simp [rootLe, Bool.or_eq_true, Bool.and_eq_true, decide_eq_true_eq,
    beq_iff_eq]

theorem rootLe_refl (a : Int × List String) : rootLe a a = true := by
  rw [rootLe_iff]
  omega

theorem rootLe_total (a b : Int × List String) :
    rootLe a b = true ∨ rootLe b a = true := by
  rw [rootLe_iff, rootLe_iff]
  omega

theorem rootLe_trans {a b c : Int × List String}
    (h1 : rootLe a b = true) (h2 : rootLe b c = true) :
    rootLe a c = true := by
  rw [rootLe_iff] at h1 h2 ⊢
  omega

end DecisionAgent


/-! The claims. -/

/-- C1, counterexample to the stated invariant: a run in which the oracle
repair is judged identical to the input and the deterministic fallback
returns the input unchanged, so the repair cycle makes no progress: the
diagnostic names no package, no quoted token and no dash token, and the
manifest has no conda dependency line the last-resort loop could drop. -/
theorem c1_progress_counterexample :
    EnvironmentFixer.fix "name: test" "boom" "name: test" = "name: test" ∧
    EnvironmentFixer.are_yamls_identical "name: test"
      (EnvironmentFixer.cleanResponse "name: test") = true ∧
    EnvironmentFixer.force_remove_problematic_package "name: test" "boom" =
      "name: test" :=
  ⟨by decide, by decide, by decide⟩

/-- C1: amended progress invariant: when the oracle repair is judged
identical to the input the deterministic fallback is applied, and the
fallback strictly decreases the number of non-whitespace characters of
the manifest (hence changes it) provided the diagnostic does not mention
cudnn and the manifest holds at least one non-pip conda dependency
line. -/
theorem c1_progress_amended (yml err resp : String)
    (hid : EnvironmentFixer.are_yamls_identical yml
      (EnvironmentFixer.cleanResponse resp) = true)
    (hcudnn : occursIn ("cudnn".data) (pyLowerL err.data) = false)
    (hdep : ∃ l ∈ splitNl yml.data, (("- ".data).isPrefixOf (pyStripL l) &&
      !(occursIn ("pip".data) l)) = true) :
    nwc (EnvironmentFixer.fix yml err resp).data < nwc yml.data ∧
    EnvironmentFixer.fix yml err resp ≠ yml := by
  have heq : EnvironmentFixer.fix yml err resp =
      EnvironmentFixer.force_remove_problematic_package yml err := by
    unfold EnvironmentFixer.fix
    dsimp only
    rw [if_pos hid]
  have hlt := EnvironmentFixer.force_remove_nwc_lt yml err hcudnn hdep
  rw [heq]
  refine ⟨hlt, ?_⟩
  intro hfix
  rw [hfix] at hlt
  omega

/-- C1, witness of the amended invariant at a concrete manifest with one
numpy dependency line and an uninformative diagnostic. -/
theorem c1_progress_amended_witness :
    nwc (EnvironmentFixer.fix "name: x\ndependencies:\n  - numpy" "boom"
      "name: x\ndependencies:\n  - numpy").data <
      nwc ("name: x\ndependencies:\n  - numpy" : String).data ∧
    EnvironmentFixer.fix "name: x\ndependencies:\n  - numpy" "boom"
      "name: x\ndependencies:\n  - numpy" ≠
      "name: x\ndependencies:\n  - numpy" :=
  c1_progress_amended "name: x\ndependencies:\n  - numpy" "boom"
    "name: x\ndependencies:\n  - numpy" (by decide) (by decide) (by decide)

/-- C2: retry ceiling: every run of the loop calls the materializer at
most MAX_RETRIES times and the fixer at most MAX_RETRIES - 1 times, and
when every attempt fails it ends in the exhausted state after exactly
MAX_RETRIES materializations and MAX_RETRIES - 1 repairs: the final
failure never triggers a further repair. -/
theorem c2_retry_ceiling (mat : Nat → String → Bool × String)
    (fixer : String → String → String) (yml : String) :
    (MainV2.runLoop mat fixer Settings.MAX_RETRIES yml).matCalls ≤
      Settings.MAX_RETRIES ∧
    (MainV2.runLoop mat fixer Settings.MAX_RETRIES yml).fixCalls + 1 ≤
      Settings.MAX_RETRIES ∧
    ((∀ a y, (mat a y).1 = false) →
      (MainV2.runLoop mat fixer Settings.MAX_RETRIES yml).outcome =
        MainV2.LoopOutcome.exhausted ∧
      (MainV2.runLoop mat fixer Settings.MAX_RETRIES yml).matCalls =
        Settings.MAX_RETRIES ∧
      (MainV2.runLoop mat fixer Settings.MAX_RETRIES yml).fixCalls =
        Settings.MAX_RETRIES - 1) := by
  have h1 : (MainV2.runLoop mat fixer Settings.MAX_RETRIES yml).matCalls ≤
      Settings.MAX_RETRIES ∧
      (MainV2.runLoop mat fixer Settings.MAX_RETRIES yml).fixCalls ≤
      Settings.MAX_RETRIES - 1 :=
    MainV2.runLoopAux_le mat fixer Settings.MAX_RETRIES 1 yml
  have h5 : Settings.MAX_RETRIES = 5 := rfl
  refine ⟨h1.1, by omega, ?_⟩
  intro hfail
  exact MainV2.runLoopAux_exhausted mat fixer hfail 4 1 yml

/-- C3, counterexample to the pin invariant: an oracle output with no
python pin is returned by the builder exactly as given, with no pin
inserted. -/
theorem c3_pin_counterexample :
    EnvironmentBuilder.build_from_summary_dict_output
      "name: x\ndependencies:\n  - numpy" =
      "name: x\ndependencies:\n  - numpy" ∧
    occursIn ("python".data)
      ("name: x\ndependencies:\n  - numpy" : String).data = false :=
  ⟨by decide, by decide⟩

/-- C3: amended: the builder performs no deterministic pin repair: it
only strips whitespace and markdown fences from the oracle response, so
when the response nowhere mentions python, neither does the returned
manifest. -/
theorem c3_pin_amended (resp : String)
    (h : occursIn ("python".data) resp.data = false) :
    occursIn ("python".data)
      (EnvironmentBuilder.build_from_summary_dict_output resp).data =
      false := by
  cases hb : occursIn ("python".data)
      (EnvironmentBuilder.build_from_summary_dict_output resp).data with
  | false => rfl
  | true =>
    exfalso
    have h2 := EnvironmentBuilder.occursIn_build_output resp hb
    rw [h] at h2
    exact Bool.false_ne_true h2

/-- C3, witness of the amended theorem at a concrete pin-free oracle
response. -/
theorem c3_pin_amended_witness :
    occursIn ("python".data)
      (EnvironmentBuilder.build_from_summary_dict_output "name: x").data =
      false :=
  c3_pin_amended "name: x" (by decide)

/-- C4, counterexample to the per-attempt clean-slate reading: in the
run where a same-named environment pre-exists and every attempt fails,
the event trace of main violates the predicate that a removal separates
every pair of consecutive materialization attempts. -/
theorem c4_clean_slate_counterexample :
    MainV2.removedBeforeEachCreate
      (MainV2.mainEvents true (fun _ => false) Settings.MAX_RETRIES) false =
      false := by decide

/-- C4: amended: the removal of a pre-existing same-named environment
happens at most once per run, in the prefix before the retry loop; the
loop itself never removes an environment between attempts. -/
theorem c4_clean_slate_amended (exists0 : Bool) (mat : Nat → Bool) :
    MainV2.mainEvents exists0 mat Settings.MAX_RETRIES =
      MainV2.MEvent.envCheck ::
        ((if exists0 then [MainV2.MEvent.envRemove] else []) ++
          MainV2.loopEvents mat Settings.MAX_RETRIES 1) ∧
    MainV2.MEvent.envRemove ∉ MainV2.loopEvents mat Settings.MAX_RETRIES 1 :=
  ⟨rfl, MainV2.loopEvents_not_remove mat Settings.MAX_RETRIES 1⟩

/-- C5: the python_version of get_summary is the Python string maximum
of the hints, not the dotted numeric maximum: on the hints 3.10 and 3.8
it returns 3.8 although 3.8 precedes 3.10 in the dotted numeric
ordering of the specification; the no-hint baseline 3.9 is as
specified. -/
theorem c5_python_version_stringmax :
    DependencyCollector.summary_python_version ["3.10", "3.8"] = "3.8" ∧
    DependencyCollector.specDottedLt "3.8" "3.10" = true ∧
    DependencyCollector.summary_python_version [] = "3.9" :=
  ⟨by decide, by decide, by decide⟩

/-- C6, counterexample to the underscore exclusion: a module whose name
begins with an underscore is extracted, not excluded. -/
theorem c6_underscore_counterexample :
    DependencyCollector.extract_imports_from_file
      "import _foo\nimport os\n" = ["_foo"] := by decide

/-- C6: amended: extraction excludes standard-library names and relative
(dot-led) targets, keeping only first dotted components — it does not
exclude names beginning with an underscore — and on the specification
example it includes cv2, mapped to opencv-python, and excludes os. -/
theorem c6_imports_amended :
    (∀ (content s : String),
      s ∈ DependencyCollector.extract_imports_from_file content →
      DependencyCollector.STDLIB.contains s = false ∧
      (".".data).isPrefixOf s.data = false) ∧
    DependencyCollector.extract_imports_from_file
      "import cv2\nimport os\n" = ["cv2"] ∧
    DependencyCollector.map_import_to_package "cv2" = "opencv-python" :=
  ⟨fun _ _ h => DependencyCollector.extract_imports_mem h, by decide,
    by decide⟩

/-- C7, counterexample to the comment-stripping reading: two manifests
differing only in a comment line are judged different by the code, while
the normalization of the specification (which also drops comment lines)
judges them identical. -/
theorem c7_comment_counterexample :
    EnvironmentFixer.are_yamls_identical "name: a" "name: a\n# note" =
      false ∧
    EnvironmentFixer.spec_are_yamls_identical "name: a" "name: a\n# note" =
      true :=
  ⟨by decide, by decide⟩

/-- C7: amended identity check: two manifests are judged identical
exactly when their multisets of stripped nonblank lines agree — blank
lines are dropped and lines sorted, but comment lines are kept. -/
theorem c7_identity_amended (y1 y2 : String) :
    EnvironmentFixer.are_yamls_identical y1 y2 = true ↔
      List.Perm (EnvironmentFixer.normLines y1)
        (EnvironmentFixer.normLines y2) :=
  EnvironmentFixer.are_yamls_identical_iff y1 y2

/-- C8: environment-naming rule: every output of sanitize_env_name
matches one lowercase letter followed by lowercase letters, digits and
underscores (the fallback env included), the empty input falls back to
env, spaces and hyphens become underscores with lowercasing and deletion
of other characters, and a leading digit is prefixed with the fixed
literal. -/
theorem c8_naming_rule (s : String) :
    Helpers.validEnvName (Helpers.sanitize_env_name s).data = true ∧
    Helpers.sanitize_env_name "" = "env" ∧
    Helpers.sanitize_env_name "My App-2" = "my_app_2" ∧
    Helpers.sanitize_env_name "2fast" = "env_2fast" :=
  ⟨(Helpers.sanitize_good s).1, by decide, by decide, by decide⟩

/-- C9: root locator: every collected candidate has positive score; when
no directory scores above zero the start path is returned unchanged; and
when candidates exist the returned path is the path of a candidate that
ranks first under score descending then rendered path length
ascending. -/
theorem c9_root_locator (t : DecisionAgent.DirTree) :
    (∀ x ∈ DecisionAgent.walkScores (DecisionAgent.MAX_SCAN_DEPTH + 2) t 0 [],
      0 < x.1) ∧
    (DecisionAgent.walkScores (DecisionAgent.MAX_SCAN_DEPTH + 2) t 0 [] = [] →
      DecisionAgent.find_true_project_root t = []) ∧
    (∀ x ∈ DecisionAgent.walkScores (DecisionAgent.MAX_SCAN_DEPTH + 2) t 0 [],
      ∃ c ∈ DecisionAgent.walkScores (DecisionAgent.MAX_SCAN_DEPTH + 2) t 0 [],
        DecisionAgent.find_true_project_root t = c.2 ∧
        ∀ d ∈ DecisionAgent.walkScores
          (DecisionAgent.MAX_SCAN_DEPTH + 2) t 0 [],
          DecisionAgent.rootLe c d = true) := by
  letI : IsTotal (Int × List String)
      (fun a b => DecisionAgent.rootLe a b = true) :=
    ⟨DecisionAgent.rootLe_total⟩
  letI : IsTrans (Int × List String)
      (fun a b => DecisionAgent.rootLe a b = true) :=
    ⟨fun a b c h1 h2 => DecisionAgent.rootLe_trans h1 h2⟩
  refine ⟨DecisionAgent.walkScores_pos _ t 0 [], ?_, ?_⟩
  · intro hnil
    unfold DecisionAgent.find_true_project_root
    rw [hnil]
    rfl
  · intro x hx
    cases hs : List.insertionSort (fun a b => DecisionAgent.rootLe a b = true)
        (DecisionAgent.walkScores (DecisionAgent.MAX_SCAN_DEPTH + 2) t 0 [])
        with
    | nil =>
      exfalso
      have hmem : x ∈ List.insertionSort
          (fun a b => DecisionAgent.rootLe a b = true)
          (DecisionAgent.walkScores (DecisionAgent.MAX_SCAN_DEPTH + 2) t 0 []) :=
        (List.perm_insertionSort _ _).mem_iff.mpr hx
      rw [hs] at hmem
      simp at hmem
    | cons c rest =>
      refine ⟨c, ?_, ?_, ?_⟩
      · have hmem : c ∈ List.insertionSort
            (fun a b => DecisionAgent.rootLe a b = true)
            (DecisionAgent.walkScores
              (DecisionAgent.MAX_SCAN_DEPTH + 2) t 0 []) := by
          rw [hs]
          exact List.mem_cons_self c rest
        exact (List.perm_insertionSort _ _).mem_iff.mp hmem
      · unfold DecisionAgent.find_true_project_root
        dsimp only
        rw [hs]
      · intro d hd
        have hdins : d ∈ List.insertionSort
            (fun a b => DecisionAgent.rootLe a b = true)
            (DecisionAgent.walkScores (DecisionAgent.MAX_SCAN_DEPTH + 2) t 0 []) :=
          (List.perm_insertionSort _ _).mem_iff.mpr hd
        rw [hs] at hdins
        rcases List.mem_cons.mp hdins with h1 | h1
        · subst h1
          exact DecisionAgent.rootLe_refl d
        · have hsorted := List.sorted_insertionSort
            (fun a b => DecisionAgent.rootLe a b = true)
            (DecisionAgent.walkScores (DecisionAgent.MAX_SCAN_DEPTH + 2) t 0 [])
          rw [hs] at hsorted
          exact List.rel_of_sorted_cons hsorted d h1

/-- C10: sanitize_env_name is idempotent, so the re-sanitization inside
every conda executor entry point leaves the already-sanitized name of
the entry point unchanged and all components address one environment
name. -/
theorem c10_sanitize_idempotent (s : String) :
    Helpers.sanitize_env_name (Helpers.sanitize_env_name s) =
      Helpers.sanitize_env_name s := by
  have hg := Helpers.sanitize_good s
  exact Helpers.sanitize_fix hg.1 hg.2.1 hg.2.2

end EnvAgent
